import Mathlib

/-!
Verification of the claude-reads-hn content pipeline.

Shallow embedding of `scripts/build.py` (the inline-annotation stripper
`parse_i18n_md` and the regex-chain markdown converter `md_to_html`) and of
`translate.py` (`get_translation_path`, `translate_file`, `translate_all`).

Strings are modelled as `List Char`.  Each `re.sub` pass is modelled by a
fuel-driven left-to-right scanner (`scanSubF`) whose anchored-attempt function
mirrors the corresponding Python pattern; `re.MULTILINE` line-anchored passes
are modelled line-wise (`lineSub`).  The character classes `\w` and `\s` are
modelled by their ASCII fragments, which the inputs of this repository use.
-/

namespace CRHN

/-- ASCII fragment of the Python whitespace class `\s` (also `str.strip`). -/
def pyIsSpace (c : Char) : Bool :=
  c = ' ' || c = '\t' || c = '\n' || c = '\r' || c = '\x0b' || c = '\x0c'

/-- ASCII fragment of the Python word class `\w`. -/
def isWordChar (c : Char) : Bool :=
  c.isAlphanum || c = '_'

/-- Python `str.strip()`: remove leading and trailing whitespace. -/
def pyStrip (s : List Char) : List Char :=
  ((s.dropWhile pyIsSpace).reverse.dropWhile pyIsSpace).reverse

/-- Character list of a string literal. -/
def str (s : String) : List Char := s.data

/-- Core of the lazy group `(.+?)` followed by the literal `pat`: at least one
character of content has already been taken (reversed in `acc`); the content
ends at the earliest position where `pat` starts.  `noNl` mirrors `.` not
matching a newline when `re.DOTALL` is absent. -/
def lazyAux (noNl : Bool) (pat : List Char) (acc s : List Char) :
    Option (List Char × List Char) :=
  if pat.isPrefixOf s then some (acc.reverse, s.drop pat.length)
  else
    match s with
    | [] => none
    | c :: r => if noNl && c == '\n' then none else lazyAux noNl pat (c :: acc) r

/-- The lazy group `(.+?)` followed by the literal `pat` (content nonempty). -/
def lazyUpto (noNl : Bool) (pat : List Char) (s : List Char) : Option (List Char × List Char) :=
  match s with
  | [] => none
  | c :: r => if noNl && c == '\n' then none else lazyAux noNl pat [c] r

/-- Variant allowing empty content (used when the link pass backtracks). -/
def lazyUpto0 (noNl : Bool) (pat : List Char) (s : List Char) : Option (List Char × List Char) :=
  if pat.isPrefixOf s then some ([], s.drop pat.length) else lazyUpto noNl pat s

/-! ### The inline-annotation stripper `parse_i18n_md` -/

def I18N_OPEN : List Char := str "<!-- i18n:"

def I18N_SEP : List Char := str " -->"

def I18N_CLOSE : List Char := str "<!-- /i18n -->"

/-- One anchored attempt of
`I18N_PATTERN = re.compile(r'<!-- i18n:(\w+) -->(.+?)<!-- /i18n -->', re.DOTALL)`:
the greedy `(\w+)` takes the maximal word-character run (a shorter run can never
make the following literal `' -->'` match), and the lazy `(.+?)` ends at the
first occurrence of the closing marker.  Returns language tag, enclosed text
and the rest of the input. -/
def i18nMatch (s : List Char) : Option (List Char × List Char × List Char) :=
  if I18N_OPEN.isPrefixOf s then
    let s1 := s.drop I18N_OPEN.length
    let lang := s1.takeWhile isWordChar
    if lang.isEmpty then none
    else if I18N_SEP.isPrefixOf (s1.drop lang.length) then
      (lazyUpto false I18N_CLOSE ((s1.drop lang.length).drop I18N_SEP.length)).map
        (fun pr => (lang, pr.1, pr.2))
    else none
  else none

/-- The translation table: language code → extracted texts in encounter order
(a Python dict preserves insertion order). -/
abbrev Tr := List (List Char × List (List Char))

/-- `translations[lang].append(text)` (creating the entry if needed). -/
def addTr (tr : Tr) (lang text : List Char) : Tr :=
  match tr with
  | [] => [(lang, [text])]
  | (l, ts) :: rest =>
      if l = lang then (l, ts ++ [text]) :: rest else (l, ts) :: addTr rest lang text

def lookupTr (tr : Tr) (lang : List Char) : Option (List (List Char)) :=
  match tr with
  | [] => none
  | (l, ts) :: rest => if l = lang then some ts else lookupTr rest lang

/-- The replacement produced by `collect_translation`, with the stripped text. -/
def spanOf (lang text : List Char) : List Char :=
  str "<span class=\"i18n i18n-" ++ lang ++ str "\" lang=\"" ++ lang ++ str "\">"
    ++ text ++ str "</span>"

/-- Fuel-driven core of `I18N_PATTERN.sub(collect_translation, content)`: scan
left to right, replace every match, and accumulate the translation table. -/
def parseGoF : Nat → List Char → Tr → List Char × Tr
  | 0, s, tr => (s, tr)
  | _ + 1, [], tr => ([], tr)
  | fuel + 1, c :: r, tr =>
    match i18nMatch (c :: r) with
    | some (lang, content, rest) =>
      let text := pyStrip content
      let p := parseGoF fuel rest (addTr tr lang text)
      (spanOf lang text ++ p.1, p.2)
    | none =>
      let p := parseGoF fuel r tr
      (c :: p.1, p.2)

/-- `parse_i18n_md`: processed markdown plus the translation table. -/
def parse_i18n_md (s : List Char) : List Char × Tr :=
  parseGoF s.length s []

/-- Canonical-fuel runner used in the proofs. -/
def parseRun (s : List Char) (tr : Tr) : List Char × Tr :=
  parseGoF s.length s tr

/-! ### The regex-chain converter `md_to_html`

Each non-anchored pass is a left-to-right scan: at every position the anchored
attempt either fails (the scan moves one character) or succeeds, in which case
the replacement is emitted and the scan resumes after the consumed text, as
`re.sub` does.  An attempt returns the replacement together with the number of
consumed characters (always positive). -/

/-- Fuel-driven `re.sub` scan for one inline pattern. -/
def scanSubF (t : List Char → Option (List Char × Nat)) : Nat → List Char → List Char
  | _, [] => []
  | 0, s => s
  | fuel + 1, c :: r =>
    match t (c :: r) with
    | some (rep, k + 1) => rep ++ scanSubF t fuel (r.drop k)
    | _ => c :: scanSubF t fuel r

/-- One inline substitution pass with canonical fuel. -/
def runPass (t : List Char → Option (List Char × Nat)) (s : List Char) : List Char :=
  scanSubF t s.length s

/-- Split on `'\n'`, as the `re.MULTILINE` anchors `^`/`$` delimit lines. -/
def splitNl : List Char → List (List Char)
  | [] => [[]]
  | c :: r =>
    if c = '\n' then [] :: splitNl r
    else
      match splitNl r with
      | l :: ls => (c :: l) :: ls
      | [] => [[c]]

def joinNl (ls : List (List Char)) : List Char :=
  List.intercalate ['\n'] ls

/-- A `re.MULTILINE` whole-line pass, applied line-wise. -/
def lineSub (f : List Char → List Char) (s : List Char) : List Char :=
  joinNl ((splitNl s).map f)

/-- `^# (.+)$` → `<h1>\1</h1>`. -/
def h1Line (l : List Char) : List Char :=
  if (str "# ").isPrefixOf l && !(l.drop 2).isEmpty then
    str "<h1>" ++ l.drop 2 ++ str "</h1>"
  else l

/-- `^### (.+)$` → `<h3>\1</h3>`. -/
def h3Line (l : List Char) : List Char :=
  if (str "### ").isPrefixOf l && !(l.drop 4).isEmpty then
    str "<h3>" ++ l.drop 4 ++ str "</h3>"
  else l

/-- A line that is exactly a bold span: both anchors are literal, so the lazy
content is the whole middle (nonempty, hence length at least 5). -/
def strongLine (l : List Char) : List Char :=
  if (str "**").isPrefixOf l && (str "**").isSuffixOf l && decide (5 ≤ l.length) then
    str "<strong>" ++ (l.drop 2).take (l.length - 4) ++ str "</strong>"
  else l

/-- `^> (.+)$` → `<blockquote>\1</blockquote>`. -/
def bqLine (l : List Char) : List Char :=
  if (str "> ").isPrefixOf l && !(l.drop 2).isEmpty then
    str "<blockquote>" ++ l.drop 2 ++ str "</blockquote>"
  else l

/-- `^- (.+)$` → `<li>\1</li>`. -/
def liLine (l : List Char) : List Char :=
  if (str "- ").isPrefixOf l && !(l.drop 2).isEmpty then
    str "<li>" ++ l.drop 2 ++ str "</li>"
  else l

/-- `^---$` → `<hr>`. -/
def hrLine (l : List Char) : List Char :=
  if l = str "---" then str "<hr>" else l

/-- `^(TLDR|Take|Comments):(.*)$` → a labelled paragraph. -/
def labelLine (l : List Char) : List Char :=
  if (str "TLDR:").isPrefixOf l then str "<p class=\"TLDR\">TLDR:" ++ l.drop 5 ++ str "</p>"
  else if (str "Take:").isPrefixOf l then str "<p class=\"Take\">Take:" ++ l.drop 5 ++ str "</p>"
  else if (str "Comments:").isPrefixOf l then
    str "<p class=\"Comments\">Comments:" ++ l.drop 9 ++ str "</p>"
  else l

def mkLink (text url : List Char) : List Char :=
  str "<a href=\"" ++ url ++ str "\">" ++ text ++ str "</a>"

/-- Backtracking over the text group of `\[(.+?)\]\((.+?)\)`: if no `)` follows
the current `](`, the text group grows past it to the next `](`. -/
def linkGo : Nat → List Char → List Char → Option (List Char × Nat)
  | 0, _, _ => none
  | fuel + 1, text, r2 =>
    match lazyUpto true (str ")") r2 with
    | some (url, _) => some (mkLink text url, 1 + text.length + 2 + url.length + 1)
    | none =>
      match lazyUpto0 true (str "](") r2 with
      | some (seg, r3) => linkGo fuel (text ++ str "](" ++ seg) r3
      | none => none

/-- Anchored attempt of `\[(.+?)\]\((.+?)\)`. -/
def linkTry (s : List Char) : Option (List Char × Nat) :=
  match s with
  | c :: r =>
    if c = '[' then
      match lazyUpto true (str "](") r with
      | some (seg, r2) => linkGo r2.length seg r2
      | none => none
    else none
  | [] => none

/-- Anchored attempt of the inline `\*\*(.+?)\*\*`. -/
def boldTry (s : List Char) : Option (List Char × Nat) :=
  match s with
  | c1 :: c2 :: r =>
    if c1 = '*' ∧ c2 = '*' then
      match lazyUpto true (str "**") r with
      | some (content, _) => some (str "<strong>" ++ content ++ str "</strong>", 2 + content.length + 2)
      | none => none
    else none
  | _ => none

/-- Anchored attempt of the inline `\*(.+?)\*`. -/
def emTry (s : List Char) : Option (List Char × Nat) :=
  match s with
  | c :: r =>
    if c = '*' then
      match lazyUpto true (str "*") r with
      | some (content, _) => some (str "<em>" ++ content ++ str "</em>", 1 + content.length + 1)
      | none => none
    else none
  | [] => none

def tagSpan (w : List Char) : List Char :=
  str "<span class=\"tag\">#" ++ w ++ str "</span>"

/-- Anchored attempt of `#(\w+)`: the greedy group is the maximal word run. -/
def tagTry (s : List Char) : Option (List Char × Nat) :=
  match s with
  | c :: r =>
    if c = '#' then
      let w := r.takeWhile isWordChar
      if w.isEmpty then none else some (tagSpan w, 1 + w.length)
    else none
  | [] => none

def LI_OPEN : List Char := str "<li>"

def LI_CLOSE : List Char := str "</li>"

/-- Greedy `(\s*<li>.+?</li>)*`: each iteration takes the maximal whitespace
run (a shorter run cannot put `<` where whitespace was) and one list item;
a failed iteration consumes nothing.  Returns matched text and rest. -/
def wrapStarF : Nat → List Char → List Char × List Char
  | 0, s => ([], s)
  | fuel + 1, s =>
    let w := s.takeWhile pyIsSpace
    let s1 := s.drop w.length
    if LI_OPEN.isPrefixOf s1 then
      match lazyUpto false LI_CLOSE (s1.drop LI_OPEN.length) with
      | some (b, r) =>
        let p := wrapStarF fuel r
        (w ++ LI_OPEN ++ b ++ LI_CLOSE ++ p.1, p.2)
      | none => ([], s)
    else ([], s)

def wrapStar (s : List Char) : List Char × List Char :=
  wrapStarF s.length s

/-- Anchored attempt of `(<li>.+?</li>(\s*<li>.+?</li>)*)` (`re.DOTALL`),
replaced by `<ul>\1</ul>`. -/
def wrapTry (s : List Char) : Option (List Char × Nat) :=
  if LI_OPEN.isPrefixOf s then
    match lazyUpto false LI_CLOSE (s.drop LI_OPEN.length) with
    | some (b, r) =>
      let p := wrapStar r
      let grp := LI_OPEN ++ b ++ LI_CLOSE ++ p.1
      some (str "<ul>" ++ grp ++ str "</ul>", grp.length)
    | none => none
  else none

/-- `md_to_html`: the eleven substitution passes of `build.py`, in source
order. -/
def md_to_html (s : List Char) : List Char :=
  runPass wrapTry
    (lineSub labelLine
      (lineSub hrLine
        (runPass tagTry
          (lineSub liLine
            (runPass emTry
              (runPass boldTry
                (runPass linkTry
                  (lineSub bqLine
                    (lineSub strongLine
                      (lineSub h3Line
                        (lineSub h1Line s)))))))))))

/-! ### The translator `translate.py` -/

/-- The keys of `LANGUAGES`, in definition order. -/
def LANG_CODES : List String := ["zh", "es", "ja", "de", "fr"]

/-- `list.index`: index of the first occurrence. -/
def idxOf (a : String) : List String → Nat
  | [] => 0
  | b :: r => if b = a then 0 else idxOf a r + 1

/-- `get_translation_path`, on the `parts` of the path: insert the language
code right after the first `digests` component if there is one, otherwise
`path.parent / lang_code / path.name`. -/
def get_translation_path (parts : List String) (lang : String) : List String :=
  if parts.contains "digests" then
    let idx := idxOf "digests" parts
    parts.take (idx + 1) ++ lang :: parts.drop (idx + 1)
  else
    parts.dropLast ++ lang :: parts.drop (parts.length - 1)

/-- The file system, as an association list from path components to content. -/
abbrev Fs := List (List String × String)

def lookupFs : Fs → List String → Option String
  | [], _ => none
  | (p, c) :: rest, q => if p = q then some c else lookupFs rest q

def writeFs : Fs → List String → String → Fs
  | [], p, c => [(p, c)]
  | (q, d) :: rest, p, c => if q = p then (q, c) :: rest else (q, d) :: writeFs rest p c

/-- Observable actions of `translate_file`, in order of occurrence. -/
inductive Event where
  | unknownLang (lang : String)
  | skip (path : List String)
  | callService (lang : String)
  | done (path : List String)
  | error (lang : String) (msg : String)
  | fileNotFound
deriving DecidableEq

/-- The per-language loop of `translate_file`.  The external service
(`translate_digest`, i.e. the hosted model call) is the oracle `svc`, which
either returns the translated text or raises. -/
def translateLangs (svc : String → String → Except String String) (content : String)
    (filePath : List String) (force : Bool) : List String → Fs → Fs × List Event
  | [], fs => (fs, [])
  | lang :: rest, fs =>
    if !(LANG_CODES.contains lang) then
      let p := translateLangs svc content filePath force rest fs
      (p.1, .unknownLang lang :: p.2)
    else
      let outPath := get_translation_path filePath lang
      if (lookupFs fs outPath).isSome && !force then
        let p := translateLangs svc content filePath force rest fs
        (p.1, .skip outPath :: p.2)
      else
        match svc content lang with
        | .ok t =>
          let fs1 := writeFs fs outPath t
          let p := translateLangs svc content filePath force rest fs1
          (p.1, .callService lang :: .done outPath :: p.2)
        | .error e =>
          let p := translateLangs svc content filePath force rest fs
          (p.1, .callService lang :: .error lang e :: p.2)

/-- `translate_file`: read the source, then process each requested language
(default: all supported codes) independently and in sequence. -/
def translate_file (svc : String → String → Except String String) (fs : Fs)
    (filePath : List String) (langCodes : Option (List String)) (force : Bool) :
    Fs × List Event :=
  let langs := langCodes.getD LANG_CODES
  match lookupFs fs filePath with
  | none => (fs, [.fileNotFound])
  | some content => translateLangs svc content filePath force langs fs

def startsWith20 (s : String) : Bool := (str "20").isPrefixOf s.data

def endsWithMd (s : String) : Bool := (str ".md").isSuffixOf s.data

/-- Membership of `Path("digests").glob("20*/**/*.md")`: the first component
is `digests`, the next starts with `20`, and at least one more component
follows, the last ending in `.md`. -/
def globMatches (p : List String) : Bool :=
  match p with
  | "digests" :: d :: rest => startsWith20 d && !rest.isEmpty && endsWithMd (rest.getLastD "")
  | _ => false

/-- Substring test on character lists (Python `in` on `str`). -/
def hasSub : List Char → List Char → Bool
  | s, pat =>
    if pat.isPrefixOf s then true
    else
      match s with
      | [] => false
      | _ :: r => hasSub r pat

/-- `"/".join(parts)`: the string form of a relative path. -/
def joinSlash : List (List Char) → List Char
  | [] => []
  | [x] => x
  | x :: xs => x ++ '/' :: joinSlash xs

def pathStr (p : List String) : List Char := joinSlash (p.map String.data)

/-- `any(f"/{lang}/" in str(md_file) for lang in LANGUAGES)`. -/
def skipLang (p : List String) : Bool :=
  LANG_CODES.any (fun l => hasSub (pathStr p) ('/' :: l.data ++ ['/']))

/-- `translate_all`: walk the given directory listing, keep the glob matches,
skip paths containing a language segment, and run `translate_file` on the
rest (all languages, `lang_codes=None`). -/
def translate_all (svc : String → String → Except String String)
    (paths : List (List String)) (fs : Fs) (force : Bool) : Fs × List Event :=
  (paths.filter globMatches).foldl
    (fun acc p =>
      if skipLang p then acc
      else
        let r := translate_file svc acc.1 p none force
        (r.1, acc.2 ++ r.2))
    (fs, [])

/-- The set of files `translate_all` actually submits to `translate_file`. -/
def discovers (p : List String) : Bool := globMatches p && !skipLang p

/-- Modelled from the spec: "all source documents under the digests root whose
path does not already contain a known language-code segment" — a `.md`
document anywhere under `digests` with no supported code among its directory
components. -/
def specSourceDoc (p : List String) : Bool :=
  match p with
  | "digests" :: rest =>
      !rest.isEmpty && endsWithMd (rest.getLastD "") &&
        !(rest.dropLast.any (fun seg => LANG_CODES.contains seg))
  | _ => false

/-! ### Statement-side renderings used by the claims -/

/-- A well-formed annotation span. -/
def mkI18n (lang text : List Char) : List Char :=
  I18N_OPEN ++ lang ++ I18N_SEP ++ text ++ I18N_CLOSE

/-- A document: plain gaps interleaved with annotation spans, then a final
gap. -/
def renderDoc : List (List Char × List Char × List Char) → List Char → List Char
  | [], g => g
  | (g, l, t) :: rest, gN => g ++ mkI18n l t ++ renderDoc rest gN

/-- The processed form: every span replaced by its display element. -/
def processedDoc : List (List Char × List Char × List Char) → List Char → List Char
  | [], g => g
  | (g, l, t) :: rest, gN => g ++ spanOf l t ++ processedDoc rest gN

/-- The translation table accumulated over a document. -/
def tableOf (d : List (List Char × List Char × List Char)) : Tr :=
  d.foldl (fun tr x => addTr tr x.2.1 x.2.2) []

def liItem (b : List Char) : List Char := LI_OPEN ++ b ++ LI_CLOSE

/-- A run of list items: a first item, then items each preceded by whitespace. -/
def renderRun (b : List Char) (rest : List (List Char × List Char)) : List Char :=
  liItem b ++ (rest.map (fun x => x.1 ++ liItem x.2)).flatten

/-- The span triple with its text stripped, as `collect_translation` stores it. -/
def stripTriple (x : List Char × List Char × List Char) : List Char × List Char × List Char :=
  (x.1, x.2.1, pyStrip x.2.2)

/-- The texts of the spans of one language, in encounter order. -/
def textsFor (d : List (List Char × List Char × List Char)) (lang : List Char) :
    List (List Char) :=
  (d.filter (fun x => x.2.1 == lang)).map (fun x => x.2.2)

/-- No occurrence of the two characters that start a list item (used to show
that the wrap pass leaves a string unchanged). -/
def noLtL : List Char → Bool
  | c1 :: c2 :: r => if c1 = '<' ∧ c2 = 'l' then false else noLtL (c2 :: r)
  | _ => true

/-- Free of the markdown metacharacters of the conversion passes. -/
def mdSafe (s : List Char) : Prop :=
  ∀ c ∈ s, c ∉ (['\n', '[', ']', '(', ')', '*', '#', '<'] : List Char)

/-! ## Generic lemmas on character lists -/

theorem isPrefixOf_append_self : ∀ (a b : List Char), a.isPrefixOf (a ++ b) = true := by
  intro a b
  induction a with
  | nil => cases b <;> rfl
  | cons c a ih => simp [List.isPrefixOf, ih]

theorem isPrefixOf_cons_ne {c d : Char} (h : d ≠ c) (a r : List Char) :
    (d :: a).isPrefixOf (c :: r) = false := by
  simp [List.isPrefixOf, h]

theorem isEmpty_false_of_ne {l : List Char} (h : l ≠ []) : l.isEmpty = false := by
  cases l with
  | nil => exact absurd rfl h
  | cons c r => rfl

theorem takeWhile_all {p : Char → Bool} : ∀ {w : List Char}, (∀ c ∈ w, p c = true) →
    w.takeWhile p = w := by
  intro w
  induction w with
  | nil => intro _; rfl
  | cons c w ih =>
      intro hw
      rw [List.takeWhile_cons, if_pos (hw c (by simp)),
        ih (fun d hd => hw d (by simp [hd]))]

theorem takeWhile_append_stop {p : Char → Bool} {d : Char} (hd : p d = false) :
    ∀ {w : List Char}, (∀ c ∈ w, p c = true) → ∀ (z : List Char),
      (w ++ d :: z).takeWhile p = w := by
  intro w
  induction w with
  | nil =>
      intro _ z
      rw [List.nil_append, List.takeWhile_cons, if_neg (by simp [hd])]
  | cons c w ih =>
      intro hw z
      rw [List.cons_append, List.takeWhile_cons, if_pos (hw c (by simp)),
        ih (fun e he => hw e (by simp [he])) z]

theorem word_ne_lt {c : Char} (h : isWordChar c = true) : c ≠ '<' := by
  intro e
  subst e
  exact absurd h (by decide)

/-! ## The lazy group -/

theorem lazyAux_cons (noNl : Bool) (pat acc : List Char) (c : Char) (r : List Char) :
    lazyAux noNl pat acc (c :: r) =
      if pat.isPrefixOf (c :: r) then some (acc.reverse, (c :: r).drop pat.length)
      else if noNl && c == '\n' then none else lazyAux noNl pat (c :: acc) r := by
  rw [lazyAux]

theorem lazyAux_nil (noNl : Bool) (pat acc : List Char) :
    lazyAux noNl pat acc [] =
      if pat.isPrefixOf [] then some (acc.reverse, List.drop pat.length []) else none := by
  rw [lazyAux]

theorem lazyUpto_cons (noNl : Bool) (pat : List Char) (c : Char) (r : List Char) :
    lazyUpto noNl pat (c :: r) =
      if noNl && c == '\n' then none else lazyAux noNl pat [c] r := rfl

theorem lazyAux_exact {noNl : Bool} {p0 : Char} {pat' : List Char} :
    ∀ (t' : List Char), p0 ∉ t' → (noNl = true → '\n' ∉ t') →
      ∀ (acc z : List Char),
        lazyAux noNl (p0 :: pat') acc (t' ++ (p0 :: pat') ++ z) = some (acc.reverse ++ t', z) := by
  intro t'
  induction t' with
  | nil =>
      intro _ _ acc z
      rw [List.nil_append, List.cons_append, lazyAux_cons,
        if_pos (by rw [← List.cons_append]; exact isPrefixOf_append_self _ _)]
      simp [List.drop_left']
  | cons c t' ih =>
      intro hmem hnl acc z
      have hc : p0 ≠ c := fun h => hmem (by simp [h])
      rw [List.cons_append, List.cons_append, lazyAux_cons,
        if_neg (by simp [isPrefixOf_cons_ne hc])]
      have hnlc : (noNl && c == '\n') = false := by
        cases hn : noNl with
        | false => rfl
        | true =>
            have : c ≠ '\n' := fun h => (hnl hn) (by simp [h])
            simp [this]
      simp only [hnlc, Bool.false_eq_true, if_false]
      rw [ih (fun h => hmem (by simp [h])) (fun hn h => (hnl hn) (by simp [h])) (c :: acc) z]
      simp

theorem lazyUpto_exact {noNl : Bool} {p0 : Char} {pat' : List Char} {t : List Char}
    (ht : t ≠ []) (hmem : p0 ∉ t) (hnl : noNl = true → '\n' ∉ t) (z : List Char) :
    lazyUpto noNl (p0 :: pat') (t ++ (p0 :: pat') ++ z) = some (t, z) := by
  cases t with
  | nil => exact absurd rfl ht
  | cons c t' =>
      rw [List.cons_append, List.cons_append, lazyUpto_cons]
      have hnlc : (noNl && c == '\n') = false := by
        cases hn : noNl with
        | false => rfl
        | true =>
            have : c ≠ '\n' := fun h => (hnl hn) (by simp [h])
            simp [this]
      simp only [hnlc, Bool.false_eq_true, if_false]
      rw [lazyAux_exact t' (fun h => hmem (by simp [h])) (fun hn h => (hnl hn) (by simp [h])) [c] z]
      simp

theorem lazyAux_none {noNl : Bool} {p0 : Char} {pat' : List Char} :
    ∀ (s : List Char), p0 ∉ s → ∀ (acc : List Char),
      lazyAux noNl (p0 :: pat') acc s = none := by
  intro s
  induction s with
  | nil =>
      intro _ acc
      rw [lazyAux_nil, if_neg (by simp [List.isPrefixOf])]
  | cons c r ih =>
      intro hmem acc
      have hc : p0 ≠ c := fun h => hmem (by simp [h])
      rw [lazyAux_cons, if_neg (by simp [isPrefixOf_cons_ne hc])]
      by_cases hn : (noNl && c == '\n') = true
      · simp [hn]
      · simp only [Bool.not_eq_true] at hn
        simp only [hn, Bool.false_eq_true, if_false]
        exact ih (fun h => hmem (by simp [h])) (c :: acc)

theorem lazyUpto_none {noNl : Bool} {p0 : Char} {pat' : List Char} {s : List Char}
    (hmem : p0 ∉ s) : lazyUpto noNl (p0 :: pat') s = none := by
  cases s with
  | nil => rfl
  | cons c r =>
      rw [lazyUpto_cons]
      by_cases hn : (noNl && c == '\n') = true
      · simp [hn]
      · simp only [Bool.not_eq_true] at hn
        simp only [hn, Bool.false_eq_true, if_false]
        exact lazyAux_none r (fun h => hmem (by simp [h])) [c]

theorem lazyAux_le {noNl : Bool} {pat : List Char} :
    ∀ (s acc : List Char) {cnt rest : List Char},
      lazyAux noNl pat acc s = some (cnt, rest) → rest.length ≤ s.length := by
  intro s
  induction s with
  | nil =>
      intro acc cnt rest h
      rw [lazyAux_nil] at h
      by_cases hp : pat.isPrefixOf ([] : List Char) = true
      · rw [if_pos hp] at h
        simp only [Option.some.injEq, Prod.mk.injEq] at h
        rw [← h.2]
        simp [List.length_drop]
      · rw [if_neg hp] at h
        simp at h
  | cons c r ih =>
      intro acc cnt rest h
      rw [lazyAux_cons] at h
      by_cases hp : pat.isPrefixOf (c :: r) = true
      · rw [if_pos hp] at h
        simp only [Option.some.injEq, Prod.mk.injEq] at h
        rw [← h.2]
        simp [List.length_drop]
      · rw [if_neg hp] at h
        by_cases hn : (noNl && c == '\n') = true
        · rw [if_pos hn] at h; simp at h
        · rw [if_neg hn] at h
          exact Nat.le_trans (ih (c :: acc) h) (by simp)

theorem lazyUpto_lt {noNl : Bool} {pat s : List Char} {cnt rest : List Char}
    (h : lazyUpto noNl pat s = some (cnt, rest)) : rest.length < s.length := by
  cases s with
  | nil => simp [lazyUpto] at h
  | cons c r =>
      rw [lazyUpto_cons] at h
      by_cases hn : (noNl && c == '\n') = true
      · rw [if_pos hn] at h; simp at h
      · rw [if_neg hn] at h
        exact Nat.lt_succ_of_le (lazyAux_le r [c] h)

/-! ## The annotation matcher -/

theorem i18nMatch_none_head {c : Char} (hc : c ≠ '<') (r : List Char) :
    i18nMatch (c :: r) = none := by
  have h : I18N_OPEN.isPrefixOf (c :: r) = false := by
    have e : I18N_OPEN = '<' :: str "!-- i18n:" := rfl
    rw [e]
    exact isPrefixOf_cons_ne (fun h => hc h.symm) _ _
  simp [i18nMatch, h]

theorem i18nMatch_nil : i18nMatch [] = none := rfl

theorem i18nMatch_shrink {s : List Char} {l cnt rest : List Char}
    (h : i18nMatch s = some (l, cnt, rest)) : rest.length < s.length := by
  simp only [i18nMatch] at h
  by_cases hp : I18N_OPEN.isPrefixOf s = true
  · rw [if_pos hp] at h
    split at h
    · simp at h
    · split at h
      · rw [Option.map_eq_some'] at h
        obtain ⟨⟨content, rest'⟩, hz, heq⟩ := h
        simp only [Prod.mk.injEq] at heq
        obtain ⟨-, -, h3⟩ := heq
        subst h3
        have hlt := lazyUpto_lt hz
        simp only [List.length_drop] at hlt
        omega
      · simp at h
  · rw [if_neg hp] at h
    simp at h

theorem i18nMatch_exact {l t : List Char} (hl : l ≠ []) (hlw : ∀ c ∈ l, isWordChar c = true)
    (ht : t ≠ []) (htl : '<' ∉ t) (z : List Char) :
    i18nMatch (mkI18n l t ++ z) = some (l, t, z) := by
  have e1 : mkI18n l t ++ z = I18N_OPEN ++ (l ++ (I18N_SEP ++ (t ++ (I18N_CLOSE ++ z)))) := by
    simp [mkI18n]
  rw [e1]
  have hsep : I18N_SEP ++ (t ++ (I18N_CLOSE ++ z)) = ' ' :: (str "-->" ++ (t ++ (I18N_CLOSE ++ z))) := rfl
  have htw : (l ++ (I18N_SEP ++ (t ++ (I18N_CLOSE ++ z)))).takeWhile isWordChar = l := by
    rw [hsep]
    exact takeWhile_append_stop (by decide) hlw _
  simp only [i18nMatch]
  rw [if_pos (isPrefixOf_append_self _ _), List.drop_left, htw,
    if_neg (by simp [isEmpty_false_of_ne hl]), List.drop_left,
    if_pos (isPrefixOf_append_self _ _), List.drop_left]
  have hcl : I18N_CLOSE = '<' :: str "!-- /i18n -->" := rfl
  have : lazyUpto false I18N_CLOSE (t ++ (I18N_CLOSE ++ z)) = some (t, z) := by
    rw [← List.append_assoc, hcl]
    exact lazyUpto_exact ht htl (by intro h; exact absurd h (by decide)) z
  rw [this]
  rfl

theorem i18nMatch_unclosed {l t : List Char} (hl : l ≠ []) (hlw : ∀ c ∈ l, isWordChar c = true)
    (htl : '<' ∉ t) :
    i18nMatch (I18N_OPEN ++ (l ++ (I18N_SEP ++ t))) = none := by
  have hsep : I18N_SEP ++ t = ' ' :: (str "-->" ++ t) := rfl
  have htw : (l ++ (I18N_SEP ++ t)).takeWhile isWordChar = l := by
    rw [hsep]
    exact takeWhile_append_stop (by decide) hlw _
  simp only [i18nMatch]
  rw [if_pos (isPrefixOf_append_self _ _), List.drop_left, htw,
    if_neg (by simp [isEmpty_false_of_ne hl]), List.drop_left,
    if_pos (isPrefixOf_append_self _ _), List.drop_left]
  have hcl : I18N_CLOSE = '<' :: str "!-- /i18n -->" := rfl
  rw [hcl, lazyUpto_none htl]
  rfl

/-! ## The substitution scan of `parse_i18n_md` -/

theorem parseGoF_nil (f : Nat) (tr : Tr) : parseGoF f [] tr = ([], tr) := by
  cases f <;> rfl

theorem parseGoF_congr : ∀ (f1 f2 : Nat) (s : List Char) (tr : Tr),
    s.length ≤ f1 → s.length ≤ f2 → parseGoF f1 s tr = parseGoF f2 s tr := by
  intro f1
  induction f1 with
  | zero =>
      intro f2 s tr h1 _
      have : s = [] := List.eq_nil_of_length_eq_zero (Nat.le_zero.mp h1)
      subst this
      rw [parseGoF_nil, parseGoF_nil]
  | succ f1 ih =>
      intro f2 s tr h1 h2
      cases s with
      | nil => rw [parseGoF_nil, parseGoF_nil]
      | cons c r =>
          cases f2 with
          | zero => simp at h2
          | succ f2 =>
              cases hm : i18nMatch (c :: r) with
              | none =>
                  have ha : r.length ≤ f1 := by simp at h1; omega
                  have hb : r.length ≤ f2 := by simp at h2; omega
                  simp only [parseGoF, hm]
                  rw [ih f2 r tr ha hb]
              | some x =>
                  obtain ⟨lang, content, rest⟩ := x
                  have hs : rest.length < r.length + 1 := by
                    have := i18nMatch_shrink hm
                    simpa using this
                  have ha : rest.length ≤ f1 := by simp at h1; omega
                  have hb : rest.length ≤ f2 := by simp at h2; omega
                  simp only [parseGoF, hm]
                  rw [ih f2 rest _ ha hb]

theorem parseRun_nil (tr : Tr) : parseRun [] tr = ([], tr) := rfl

theorem parseRun_cons_none {c : Char} {r : List Char} (h : i18nMatch (c :: r) = none)
    (tr : Tr) :
    parseRun (c :: r) tr = (c :: (parseRun r tr).1, (parseRun r tr).2) := by
  show parseGoF (r.length + 1) (c :: r) tr = _
  simp only [parseGoF, h]
  rfl

theorem parseRun_match {s l cnt rest : List Char}
    (h : i18nMatch s = some (l, cnt, rest)) (tr : Tr) :
    parseRun s tr =
      (spanOf l (pyStrip cnt) ++ (parseRun rest (addTr tr l (pyStrip cnt))).1,
       (parseRun rest (addTr tr l (pyStrip cnt))).2) := by
  cases s with
  | nil => rw [i18nMatch_nil] at h; exact absurd h (by simp)
  | cons c r =>
      show parseGoF (r.length + 1) (c :: r) tr = _
      simp only [parseGoF, h]
      have hs : rest.length ≤ r.length := by
        have := i18nMatch_shrink h
        simp at this
        omega
      rw [parseGoF_congr r.length rest.length rest _ hs (Nat.le_refl _)]
      rfl

theorem parseRun_walk {g : List Char} (hg : '<' ∉ g) :
    ∀ (s : List Char) (tr : Tr),
      parseRun (g ++ s) tr = (g ++ (parseRun s tr).1, (parseRun s tr).2) := by
  induction g with
  | nil => intro s tr; simp
  | cons c g ih =>
      intro s tr
      have hc : c ≠ '<' := fun h => hg (by simp [h])
      rw [List.cons_append, parseRun_cons_none (i18nMatch_none_head hc _) tr,
        ih (fun h => hg (by simp [h])) s tr]
      simp

theorem parseRun_clean {s : List Char} (hs : '<' ∉ s) (tr : Tr) : parseRun s tr = (s, tr) := by
  have := parseRun_walk hs [] tr
  simpa [parseRun_nil] using this

/-- The main induction: a document of clean gaps and well-formed spans parses
to the replaced text and the folded translation table. -/
theorem parseRun_renderDoc :
    ∀ (d : List (List Char × List Char × List Char)) (gN : List Char) (tr : Tr),
      (∀ x ∈ d, '<' ∉ x.1 ∧ x.2.1 ≠ [] ∧ (∀ c ∈ x.2.1, isWordChar c = true) ∧
        x.2.2 ≠ [] ∧ '<' ∉ x.2.2) →
      '<' ∉ gN →
      parseRun (renderDoc d gN) tr =
        (processedDoc (d.map stripTriple) gN,
         (d.map stripTriple).foldl (fun tr x => addTr tr x.2.1 x.2.2) tr) := by
  intro d
  induction d with
  | nil =>
      intro gN tr _ hgN
      simp only [renderDoc, processedDoc, List.map_nil, List.foldl_nil]
      exact parseRun_clean hgN tr
  | cons x d ih =>
      intro gN tr hd hgN
      obtain ⟨g, l, t⟩ := x
      obtain ⟨hg, hl, hlw, ht, htl⟩ := hd (g, l, t) (by simp)
      have hmatch : i18nMatch (mkI18n l t ++ renderDoc d gN) = some (l, t, renderDoc d gN) :=
        i18nMatch_exact hl hlw ht htl _
      rw [renderDoc, List.append_assoc, parseRun_walk hg, parseRun_match hmatch tr,
        ih gN (addTr tr l (pyStrip t)) (fun y hy => hd y (by simp [hy])) hgN]
      simp [processedDoc, stripTriple, List.append_assoc]

/-! ## Translation-table lookups -/

theorem lookupTr_addTr_same : ∀ (tr : Tr) (l t : List Char),
    lookupTr (addTr tr l t) l = some ((lookupTr tr l).getD [] ++ [t]) := by
  intro tr
  induction tr with
  | nil => intro l t; simp [addTr, lookupTr]
  | cons p tr ih =>
      intro l t
      obtain ⟨l', ts⟩ := p
      by_cases hl : l' = l
      · subst hl
        simp [addTr, lookupTr]
      · simp [addTr, lookupTr, hl, ih]

theorem lookupTr_addTr_other : ∀ (tr : Tr) (l t lang : List Char), lang ≠ l →
    lookupTr (addTr tr l t) lang = lookupTr tr lang := by
  intro tr
  induction tr with
  | nil =>
      intro l t lang hne
      have h' : l ≠ lang := fun h => hne h.symm
      simp [addTr, lookupTr, h']
  | cons p tr ih =>
      intro l t lang hne
      obtain ⟨l', ts⟩ := p
      by_cases hl : l' = l
      · subst hl
        have h' : l' ≠ lang := fun h => hne h.symm
        simp [addTr, lookupTr, h']
      · simp only [addTr, if_neg hl]
        by_cases hl2 : l' = lang
        · simp [lookupTr, hl2]
        · simp [lookupTr, hl2, ih l t lang hne]

theorem lookupTr_foldl :
    ∀ (d : List (List Char × List Char × List Char)) (tr : Tr) (lang : List Char),
      lookupTr (d.foldl (fun tr x => addTr tr x.2.1 x.2.2) tr) lang =
        if textsFor d lang = [] then lookupTr tr lang
        else some ((lookupTr tr lang).getD [] ++ textsFor d lang) := by
  intro d
  induction d with
  | nil => intro tr lang; simp [textsFor]
  | cons x d ih =>
      intro tr lang
      obtain ⟨g, l, t⟩ := x
      rw [List.foldl_cons, ih]
      by_cases hl : l = lang
      · subst hl
        have htx : textsFor ((g, l, t) :: d) l = t :: textsFor d l := by
          simp [textsFor, List.filter_cons]
        rw [htx, lookupTr_addTr_same]
        by_cases he : textsFor d l = []
        · simp [he]
        · simp only [he, if_false]
          simp
      · have htx : textsFor ((g, l, t) :: d) lang = textsFor d lang := by
          simp [textsFor, List.filter_cons, hl]
        rw [htx, lookupTr_addTr_other _ _ _ _ (fun h => hl h.symm)]

theorem map_stripTriple_id {d : List (List Char × List Char × List Char)}
    (h : ∀ x ∈ d, pyStrip x.2.2 = x.2.2) : d.map stripTriple = d := by
  induction d with
  | nil => rfl
  | cons x d ih =>
      obtain ⟨g, l, t⟩ := x
      have hx : pyStrip t = t := h (g, l, t) (by simp)
      simp only [List.map_cons, stripTriple, hx]
      rw [ih (fun y hy => h y (by simp [hy]))]

/-- A single well-formed span parses to its display element, with the stripped
text both in the element and in the table. -/
theorem parse_single_span {l t : List Char} (hl : l ≠ [])
    (hlw : ∀ c ∈ l, isWordChar c = true) (ht : t ≠ []) (htl : '<' ∉ t) :
    parse_i18n_md (mkI18n l t) = (spanOf l (pyStrip t), [(l, [pyStrip t])]) := by
  show parseRun _ [] = _
  have hm : i18nMatch (mkI18n l t) = some (l, t, []) := by
    have := i18nMatch_exact hl hlw ht htl []
    simpa using this
  rw [parseRun_match hm []]
  simp [parseRun_nil, addTr]

/-! ## Claims about `parse_i18n_md` -/

/-- C1: the annotation stripper replaces every span delimited by a start
marker carrying a language tag and a matching end marker with a display
element tagged by that language, and appends the enclosed text to the
translation table under that language, preserving encounter order within each
language; matching is not line-bounded (a span text may contain newlines). -/
theorem c1_annotation_stripping :
    ∀ (d : List (List Char × List Char × List Char)) (gN : List Char),
      (∀ x ∈ d, '<' ∉ x.1 ∧ x.2.1 ≠ [] ∧ (∀ c ∈ x.2.1, isWordChar c = true) ∧
        x.2.2 ≠ [] ∧ '<' ∉ x.2.2 ∧ pyStrip x.2.2 = x.2.2) →
      '<' ∉ gN →
      parse_i18n_md (renderDoc d gN) = (processedDoc d gN, tableOf d) ∧
      ∀ lang, lookupTr (tableOf d) lang =
        if textsFor d lang = [] then none else some (textsFor d lang) := by
  intro d gN hd hgN
  have hmap : d.map stripTriple = d := map_stripTriple_id (fun x hx => (hd x hx).2.2.2.2.2)
  have h1 := parseRun_renderDoc d gN []
    (fun x hx =>
      ⟨(hd x hx).1, (hd x hx).2.1, (hd x hx).2.2.1, (hd x hx).2.2.2.1, (hd x hx).2.2.2.2.1⟩)
    hgN
  rw [hmap] at h1
  constructor
  · show parseRun (renderDoc d gN) [] = _
    rw [h1]
    rfl
  · intro lang
    have h2 := lookupTr_foldl d [] lang
    rw [show (d.foldl (fun tr x => addTr tr x.2.1 x.2.2) ([] : Tr)) = tableOf d from rfl] at h2
    rw [h2]
    by_cases he : textsFor d lang = []
    · simp [he, lookupTr]
    · simp [he, lookupTr]

/-- Witness for C1: the round trip of the spec on `<!-- i18n:zh -->你好<!-- /i18n -->`,
plus a span whose text crosses a line boundary. -/
theorem c1_witness :
    parse_i18n_md (str "<!-- i18n:zh -->你好<!-- /i18n -->") =
      (str "<span class=\"i18n i18n-zh\" lang=\"zh\">你好</span>", [(str "zh", [str "你好"])]) ∧
    lookupTr (parse_i18n_md (str "<!-- i18n:zh -->你好<!-- /i18n -->")).2 (str "zh") =
      some [str "你好"] ∧
    parse_i18n_md (str "<!-- i18n:zh -->A\nB<!-- /i18n -->") =
      (str "<span class=\"i18n i18n-zh\" lang=\"zh\">A\nB</span>", [(str "zh", [str "A\nB"])]) := by
  have h1 := c1_annotation_stripping [([], str "zh", str "你好")] [] (by decide) (by decide)
  have h2 := c1_annotation_stripping [([], str "zh", str "A\nB")] [] (by decide) (by decide)
  have e1 : parse_i18n_md (str "<!-- i18n:zh -->你好<!-- /i18n -->") =
      (str "<span class=\"i18n i18n-zh\" lang=\"zh\">你好</span>", [(str "zh", [str "你好"])]) := by
    have e := h1.1
    rw [show renderDoc [([], str "zh", str "你好")] [] =
        str "<!-- i18n:zh -->你好<!-- /i18n -->" from rfl] at e
    rw [e]
    rfl
  refine ⟨e1, ?_, ?_⟩
  · rw [e1]
    rfl
  · have e := h2.1
    rw [show renderDoc [([], str "zh", str "A\nB")] [] =
        str "<!-- i18n:zh -->A\nB<!-- /i18n -->" from rfl] at e
    rw [e]
    rfl

/-- C9: a start marker with no matching end marker is left unchanged as
literal text, no table entry is added, and no failure occurs. -/
theorem c9_unmatched_marker (g l t : List Char)
    (hg : '<' ∉ g) (hl : l ≠ []) (hlw : ∀ c ∈ l, isWordChar c = true) (ht : '<' ∉ t) :
    parse_i18n_md (g ++ (I18N_OPEN ++ (l ++ (I18N_SEP ++ t)))) =
      (g ++ (I18N_OPEN ++ (l ++ (I18N_SEP ++ t))), []) := by
  show parseRun _ [] = _
  rw [parseRun_walk hg]
  have hcons : I18N_OPEN ++ (l ++ (I18N_SEP ++ t)) =
      '<' :: (str "!-- i18n:" ++ (l ++ (I18N_SEP ++ t))) := rfl
  have hm : i18nMatch ('<' :: (str "!-- i18n:" ++ (l ++ (I18N_SEP ++ t)))) = none := by
    rw [← hcons]
    exact i18nMatch_unclosed hl hlw ht
  have hno : '<' ∉ str "!-- i18n:" ++ (l ++ (I18N_SEP ++ t)) := by
    intro hmem
    rcases List.mem_append.mp hmem with h | h
    · exact absurd h (by decide)
    · rcases List.mem_append.mp h with h | h
      · exact absurd (hlw '<' h) (by decide)
      · rcases List.mem_append.mp h with h | h
        · exact absurd h (by decide)
        · exact ht h
  rw [hcons, parseRun_cons_none hm, parseRun_clean hno]

/-- Witness for C9: an unterminated annotation passes through unchanged. -/
theorem c9_witness :
    parse_i18n_md (str "a<!-- i18n:zh -->你好") = (str "a<!-- i18n:zh -->你好", []) := by
  have h := c9_unmatched_marker (str "a") (str "zh") (str "你好")
    (by decide) (by decide) (by decide) (by decide)
  rw [show str "a" ++ (I18N_OPEN ++ (str "zh" ++ (I18N_SEP ++ str "你好"))) =
      str "a<!-- i18n:zh -->你好" from rfl] at h
  exact h

/-- C10: the text stored in the table and placed in the display element is the
stripped enclosed text; two spans whose texts differ only in surrounding
whitespace produce identical results. -/
theorem c10_strip (l t1 t2 : List Char)
    (hl : l ≠ []) (hlw : ∀ c ∈ l, isWordChar c = true)
    (h1 : t1 ≠ []) (h1l : '<' ∉ t1) (h2 : t2 ≠ []) (h2l : '<' ∉ t2)
    (hst : pyStrip t1 = pyStrip t2) :
    parse_i18n_md (mkI18n l t1) = (spanOf l (pyStrip t1), [(l, [pyStrip t1])]) ∧
    parse_i18n_md (mkI18n l t1) = parse_i18n_md (mkI18n l t2) := by
  have e1 := parse_single_span hl hlw h1 h1l
  have e2 := parse_single_span hl hlw h2 h2l
  exact ⟨e1, by rw [e1, e2, hst]⟩

/-! ## Lemmas about the translator -/

theorem idxOf_append {a : String} : ∀ (pre post : List String), a ∉ pre →
    idxOf a (pre ++ a :: post) = pre.length := by
  intro pre
  induction pre with
  | nil => intro post _; simp [idxOf]
  | cons b pre ih =>
      intro post hmem
      have hb : b ≠ a := fun h => hmem (by simp [h])
      simp [idxOf, hb, ih post (fun h => hmem (by simp [h]))]

theorem contains_iff_mem {l : List String} {a : String} : l.contains a = true ↔ a ∈ l :=
  List.elem_iff

theorem lookupFs_writeFs : ∀ (fs : Fs) (q p : List String) (c : String),
    lookupFs (writeFs fs q c) p = if q = p then some c else lookupFs fs p := by
  intro fs
  induction fs with
  | nil => intro q p c; simp [writeFs, lookupFs]
  | cons e fs ih =>
      intro q p c
      obtain ⟨k, v⟩ := e
      by_cases hk : k = q
      · subst hk
        simp only [writeFs, if_pos rfl]
        by_cases hp : k = p
        · subst hp; simp [lookupFs]
        · simp [lookupFs, hp]
      · simp only [writeFs, if_neg hk]
        by_cases hp : k = p
        · subst hp
          have hq : q ≠ k := fun h => hk h.symm
          simp [lookupFs, hq]
        · simp [lookupFs, hp, ih]

/-- With `force = false`, `translate_file` never overwrites an existing file:
every path present in the initial file system keeps its content. -/
theorem translateLangs_frame (svc : String → String → Except String String)
    (content : String) (fp : List String) :
    ∀ (langs : List String) (fs : Fs) (p : List String) (c : String),
      lookupFs fs p = some c →
      lookupFs (translateLangs svc content fp false langs fs).1 p = some c := by
  intro langs
  induction langs with
  | nil => intro fs p c h; exact h
  | cons lang rest ih =>
      intro fs p c h
      simp only [translateLangs]
      by_cases hc : (LANG_CODES.contains lang) = true
      · simp only [hc, Bool.not_true, Bool.false_eq_true, if_false]
        by_cases he : (lookupFs fs (get_translation_path fp lang)).isSome = true
        · simp only [he, Bool.not_false, Bool.and_true, if_true]
          exact ih fs p c h
        · simp only [he, Bool.not_false, Bool.and_true, Bool.false_eq_true, if_false]
          cases hsvc : svc content lang with
          | ok t =>
              have hne : get_translation_path fp lang ≠ p := by
                intro e
                rw [e, h] at he
                exact he rfl
              have hw : lookupFs (writeFs fs (get_translation_path fp lang) t) p = some c := by
                rw [lookupFs_writeFs, if_neg hne]
                exact h
              simpa using ih _ p c hw
          | error e => simpa using ih fs p c h
      · rw [Bool.not_eq_true] at hc
        simp only [hc, Bool.not_false, if_true]
        exact ih fs p c h

/-- A `callService` event is only emitted for a language in the processed list. -/
theorem callService_mem (svc : String → String → Except String String)
    (content : String) (fp : List String) (force : Bool) :
    ∀ (langs : List String) (fs : Fs) (l : String),
      Event.callService l ∈ (translateLangs svc content fp force langs fs).2 → l ∈ langs := by
  intro langs
  induction langs with
  | nil => intro fs l h; simp [translateLangs] at h
  | cons lang rest ih =>
      intro fs l h
      simp only [translateLangs] at h
      by_cases hc : (LANG_CODES.contains lang) = true
      · simp only [hc, Bool.not_true, Bool.false_eq_true, if_false] at h
        by_cases he : ((lookupFs fs (get_translation_path fp lang)).isSome && !force) = true
        · rw [if_pos he] at h
          simp only [List.mem_cons] at h
          rcases h with h | h
          · exact absurd h (by simp)
          · exact List.mem_cons_of_mem _ (ih fs l h)
        · rw [if_neg he] at h
          cases hsvc : svc content lang with
          | ok t =>
              rw [hsvc] at h
              simp only [List.mem_cons] at h
              rcases h with h | h
              · simp only [Event.callService.injEq] at h
                simp [h]
              · rcases h with h | h
                · exact absurd h (by simp)
                · exact List.mem_cons_of_mem _ (ih _ l h)
          | error e =>
              rw [hsvc] at h
              simp only [List.mem_cons] at h
              rcases h with h | h
              · simp only [Event.callService.injEq] at h
                simp [h]
              · rcases h with h | h
                · exact absurd h (by simp)
                · exact List.mem_cons_of_mem _ (ih fs l h)
      · rw [Bool.not_eq_true] at hc
        simp only [hc, Bool.not_false, if_true, List.mem_cons] at h
        rcases h with h | h
        · exact absurd h (by simp)
        · exact List.mem_cons_of_mem _ (ih fs l h)

theorem translate_all_filter (svc : String → String → Except String String) (force : Bool) :
    ∀ (paths : List (List String)) (acc : Fs × List Event),
      (paths.filter globMatches).foldl
        (fun acc p =>
          if skipLang p then acc
          else
            let r := translate_file svc acc.1 p none force
            (r.1, acc.2 ++ r.2)) acc =
      (paths.filter discovers).foldl
        (fun acc p =>
          let r := translate_file svc acc.1 p none force
          (r.1, acc.2 ++ r.2)) acc := by
  intro paths
  induction paths with
  | nil => intro acc; rfl
  | cons p ps ih =>
      intro acc
      by_cases hg : globMatches p = true
      · by_cases hs : skipLang p = true
        · have hd : discovers p = false := by simp [discovers, hs]
          simp only [List.filter_cons, hg, hd, if_true, Bool.false_eq_true, if_false,
            List.foldl_cons, hs]
          exact ih acc
        · rw [Bool.not_eq_true] at hs
          have hd : discovers p = true := by simp [discovers, hg, hs]
          simp only [List.filter_cons, hg, hd, if_true, List.foldl_cons, hs,
            Bool.false_eq_true, if_false]
          exact ih _
      · rw [Bool.not_eq_true] at hg
        have hd : discovers p = false := by simp [discovers, hg]
        simp only [List.filter_cons, hg, hd, Bool.false_eq_true, if_false]
        exact ih acc

/-! ## Claims about the translator -/

/-- C2: the output path inserts the language code right after the (first)
`digests` segment when one is present; otherwise the file goes, with the same
name, into a language-named subdirectory next to the source. -/
theorem c2_translation_path :
    (∀ (pre post : List String) (lang : String), "digests" ∉ pre →
      get_translation_path (pre ++ "digests" :: post) lang =
        pre ++ "digests" :: lang :: post) ∧
    (∀ (parts init : List String) (nm lang : String), "digests" ∉ parts →
      parts = init ++ [nm] →
      get_translation_path parts lang = init ++ [lang, nm]) := by
  constructor
  · intro pre post lang hmem
    have hc : (pre ++ "digests" :: post).contains "digests" = true :=
      contains_iff_mem.mpr (by simp)
    have hidx : idxOf "digests" (pre ++ "digests" :: post) = pre.length :=
      idxOf_append pre post hmem
    have ht : (pre ++ "digests" :: post).take (pre.length + 1) = pre ++ ["digests"] := by
      have := @List.take_append String pre ("digests" :: post) 1
      simpa using this
    have hd : (pre ++ "digests" :: post).drop (pre.length + 1) = post := by
      have := @List.drop_append String pre ("digests" :: post) 1
      simp only [List.drop_succ_cons, List.drop_zero] at this
      exact this
    simp only [get_translation_path]
    rw [if_pos hc, hidx, ht, hd]
    simp
  · intro parts init nm lang hmem hparts
    subst hparts
    have hc : ¬ ((init ++ [nm]).contains "digests" = true) :=
      fun h => hmem (contains_iff_mem.mp h)
    simp only [get_translation_path]
    rw [if_neg hc, List.dropLast_concat]
    have hlen : (init ++ [nm]).length - 1 = init.length := by simp
    rw [hlen, List.drop_left]

/-- Witness for C2: a digests path and a digests-free path. -/
theorem c2_witness :
    get_translation_path ["digests", "2025", "12", "15-0600.md"] "zh" =
      ["digests", "zh", "2025", "12", "15-0600.md"] ∧
    get_translation_path ["notes", "a.md"] "fr" = ["notes", "fr", "a.md"] := by
  constructor
  · have h := c2_translation_path.1 [] ["2025", "12", "15-0600.md"] "zh" (by decide)
    simpa using h
  · have h := c2_translation_path.2 ["notes", "a.md"] ["notes"] "a.md" "fr" (by decide) rfl
    simpa using h

/-- C3: a supported language whose output path already exists is skipped when
force is not set: the step emits only a skip event and leaves the file system
untouched, processing continues with the remaining languages, the existing
file keeps its content to the end of the run, and no service call is ever made
for that language. -/
theorem c3_skip_existing (svc : String → String → Except String String)
    (content : String) (fp : List String) (lang : String) (rest : List String)
    (fs : Fs) (c : String)
    (hsup : LANG_CODES.contains lang = true)
    (hex : lookupFs fs (get_translation_path fp lang) = some c) :
    translateLangs svc content fp false (lang :: rest) fs =
      ((translateLangs svc content fp false rest fs).1,
       Event.skip (get_translation_path fp lang) ::
         (translateLangs svc content fp false rest fs).2) ∧
    lookupFs (translateLangs svc content fp false (lang :: rest) fs).1
      (get_translation_path fp lang) = some c ∧
    (lang ∉ rest →
      Event.callService lang ∉ (translateLangs svc content fp false (lang :: rest) fs).2) := by
  have hstep : translateLangs svc content fp false (lang :: rest) fs =
      ((translateLangs svc content fp false rest fs).1,
       Event.skip (get_translation_path fp lang) ::
         (translateLangs svc content fp false rest fs).2) := by
    have hmem : lang ∈ LANG_CODES := contains_iff_mem.mp hsup
    simp [translateLangs, hmem, hex]
  refine ⟨hstep, ?_, ?_⟩
  · exact translateLangs_frame svc content fp (lang :: rest) fs _ c hex
  · intro hrest hmem
    rw [hstep] at hmem
    simp only [List.mem_cons] at hmem
    rcases hmem with hmem | hmem
    · exact absurd hmem (by simp)
    · exact hrest (callService_mem svc content fp false rest fs lang hmem)

/-- Witness for C3: with `digests/zh/a.md` already present, requesting
`["zh", "ja"]` without force skips `zh` and never calls the service for it. -/
theorem c3_witness :
    translateLangs (fun _ _ => Except.ok "T") "src" ["digests", "a.md"] false ["zh", "ja"]
        [(["digests", "zh", "a.md"], "old")] =
      ((translateLangs (fun _ _ => Except.ok "T") "src" ["digests", "a.md"] false ["ja"]
          [(["digests", "zh", "a.md"], "old")]).1,
       Event.skip (get_translation_path ["digests", "a.md"] "zh") ::
         (translateLangs (fun _ _ => Except.ok "T") "src" ["digests", "a.md"] false ["ja"]
            [(["digests", "zh", "a.md"], "old")]).2) ∧
    lookupFs (translateLangs (fun _ _ => Except.ok "T") "src" ["digests", "a.md"] false
        ["zh", "ja"] [(["digests", "zh", "a.md"], "old")]).1
      (get_translation_path ["digests", "a.md"] "zh") = some "old" ∧
    Event.callService "zh" ∉
      (translateLangs (fun _ _ => Except.ok "T") "src" ["digests", "a.md"] false ["zh", "ja"]
        [(["digests", "zh", "a.md"], "old")]).2 := by
  have h := c3_skip_existing (fun _ _ => Except.ok "T") "src" ["digests", "a.md"] "zh" ["ja"]
    [(["digests", "zh", "a.md"], "old")] "old" (by decide) (by decide)
  exact ⟨h.1, h.2.1, h.2.2 (by decide)⟩

/-- C4: languages are processed independently and in sequence: an unsupported
code is reported with an unknown-language event and processing continues; a
service exception for one language is caught, reported, leaves the file system
unchanged and processing continues; requesting `["zh", "xx"]` with `xx`
unsupported still attempts `zh`. -/
theorem c4_independent_languages :
    (∀ (svc : String → String → Except String String) (content : String) (fp : List String)
        (force : Bool) (lang : String) (rest : List String) (fs : Fs),
      LANG_CODES.contains lang = false →
      translateLangs svc content fp force (lang :: rest) fs =
        ((translateLangs svc content fp force rest fs).1,
         Event.unknownLang lang :: (translateLangs svc content fp force rest fs).2)) ∧
    (∀ (svc : String → String → Except String String) (content : String) (fp : List String)
        (force : Bool) (lang : String) (rest : List String) (fs : Fs) (e : String),
      LANG_CODES.contains lang = true →
      ((lookupFs fs (get_translation_path fp lang)).isSome && !force) = false →
      svc content lang = Except.error e →
      translateLangs svc content fp force (lang :: rest) fs =
        ((translateLangs svc content fp force rest fs).1,
         Event.callService lang :: Event.error lang e ::
           (translateLangs svc content fp force rest fs).2)) ∧
    translate_file (fun _ _ => Except.ok "OK") [(["digests", "a.md"], "hello")]
        ["digests", "a.md"] (some ["zh", "xx"]) false =
      ([(["digests", "a.md"], "hello"), (["digests", "zh", "a.md"], "OK")],
       [Event.callService "zh", Event.done ["digests", "zh", "a.md"],
        Event.unknownLang "xx"]) := by
  refine ⟨?_, ?_, ?_⟩
  · intro svc content fp force lang rest fs hc
    have hmem : lang ∉ LANG_CODES := by
      intro h
      rw [contains_iff_mem.mpr h] at hc
      simp at hc
    simp [translateLangs, hmem]
  · intro svc content fp force lang rest fs e hc hno hsvc
    have hmem : lang ∈ LANG_CODES := contains_iff_mem.mp hc
    have hno' : ¬((lookupFs fs (get_translation_path fp lang)).isSome = true ∧ force = false) := by
      rintro ⟨h1, h2⟩
      rw [h1, h2] at hno
      simp at hno
    simp [translateLangs, hmem, hno', hsvc]
  · decide

/-- Witness for C4: an unsupported code and a failing service call. -/
theorem c4_witness :
    translateLangs (fun _ _ => Except.ok "T") "src" ["digests", "a.md"] false ["xx"] [] =
      ((translateLangs (fun _ _ => Except.ok "T") "src" ["digests", "a.md"] false [] []).1,
       Event.unknownLang "xx" ::
         (translateLangs (fun _ _ => Except.ok "T") "src" ["digests", "a.md"] false [] []).2) ∧
    translateLangs (fun _ _ => Except.error "boom") "src" ["digests", "a.md"] false ["zh"] [] =
      ((translateLangs (fun _ _ => Except.error "boom") "src" ["digests", "a.md"] false [] []).1,
       Event.callService "zh" :: Event.error "zh" "boom" ::
         (translateLangs (fun _ _ => Except.error "boom") "src" ["digests", "a.md"] false []
            []).2) :=
  ⟨c4_independent_languages.1 _ "src" _ false "xx" [] [] (by decide),
   c4_independent_languages.2.1 _ "src" _ false "zh" [] [] "boom" (by decide) (by decide) rfl⟩

/-- Counterexample for C5: `digests/notes/a.md` is a source document under the
digests root with no language segment, yet `translate_all`'s glob
`20*/**/*.md` does not discover it. -/
theorem c5_counterexample :
    discovers ["digests", "notes", "a.md"] = false ∧
    specSourceDoc ["digests", "notes", "a.md"] = true := by
  constructor
  · rfl
  · rfl

/-- C5 (amended): `translate_all` applies the per-file procedure exactly to
the glob matches (`digests`, a `20*` component, at least one more component,
`.md` file) whose slash-joined path contains no `/lang/` for a supported
language code, in listing order. -/
theorem c5_discovery (svc : String → String → Except String String)
    (paths : List (List String)) (fs : Fs) (force : Bool) :
    translate_all svc paths fs force =
      (paths.filter discovers).foldl
        (fun acc p =>
          let r := translate_file svc acc.1 p none force
          (r.1, acc.2 ++ r.2)) (fs, []) :=
  translate_all_filter svc force paths (fs, [])

/-- Witness for C5 (amended): a mixed listing. -/
theorem c5_witness :
    translate_all (fun _ _ => Except.ok "T")
        [["digests", "2025", "a.md"], ["digests", "notes", "a.md"],
         ["digests", "2025", "zh", "a.md"]] [] false =
      ([["digests", "2025", "a.md"], ["digests", "notes", "a.md"],
        ["digests", "2025", "zh", "a.md"]].filter discovers).foldl
        (fun acc p =>
          let r := translate_file (fun _ _ => Except.ok "T") acc.1 p none false
          (r.1, acc.2 ++ r.2)) ([], []) :=
  c5_discovery (fun _ _ => Except.ok "T") _ [] false

/-- Witness for C10: ` hi ` is stored as `hi`, and agrees with `hi\n`. -/
theorem c10_witness :
    parse_i18n_md (str "<!-- i18n:zh --> hi <!-- /i18n -->") =
      (str "<span class=\"i18n i18n-zh\" lang=\"zh\">hi</span>", [(str "zh", [str "hi"])]) ∧
    parse_i18n_md (str "<!-- i18n:zh --> hi <!-- /i18n -->") =
      parse_i18n_md (str "<!-- i18n:zh -->hi\n<!-- /i18n -->") := by
  have h := c10_strip (str "zh") (str " hi ") (str "hi\n")
    (by decide) (by decide) (by decide) (by decide) (by decide) (by decide) (by decide)
  constructor
  · have e := h.1
    rw [show mkI18n (str "zh") (str " hi ") = str "<!-- i18n:zh --> hi <!-- /i18n -->" from rfl] at e
    rw [e]
    rfl
  · have e := h.2
    rw [show mkI18n (str "zh") (str " hi ") = str "<!-- i18n:zh --> hi <!-- /i18n -->" from rfl,
      show mkI18n (str "zh") (str "hi\n") = str "<!-- i18n:zh -->hi\n<!-- /i18n -->" from rfl] at e
    exact e

/-! ## The inline scan of `md_to_html` -/

theorem scanSubF_nil (t : List Char → Option (List Char × Nat)) (f : Nat) :
    scanSubF t f [] = [] := by
  cases f <;> rfl

theorem scanSubF_congr (t : List Char → Option (List Char × Nat)) :
    ∀ (f1 f2 : Nat) (s : List Char), s.length ≤ f1 → s.length ≤ f2 →
      scanSubF t f1 s = scanSubF t f2 s := by
  intro f1
  induction f1 with
  | zero =>
      intro f2 s h1 _
      have : s = [] := List.eq_nil_of_length_eq_zero (Nat.le_zero.mp h1)
      subst this
      rw [scanSubF_nil, scanSubF_nil]
  | succ f1 ih =>
      intro f2 s h1 h2
      cases s with
      | nil => rw [scanSubF_nil, scanSubF_nil]
      | cons c r =>
          cases f2 with
          | zero => simp at h2
          | succ f2 =>
              have hr1 : r.length ≤ f1 := by simp at h1; omega
              have hr2 : r.length ≤ f2 := by simp at h2; omega
              cases hm : t (c :: r) with
              | none =>
                  simp only [scanSubF, hm]
                  rw [ih f2 r hr1 hr2]
              | some pr =>
                  obtain ⟨rep, k⟩ := pr
                  cases k with
                  | zero =>
                      simp only [scanSubF, hm]
                      rw [ih f2 r hr1 hr2]
                  | succ k =>
                      have hd1 : (r.drop k).length ≤ f1 := by
                        rw [List.length_drop]; omega
                      have hd2 : (r.drop k).length ≤ f2 := by
                        rw [List.length_drop]; omega
                      simp only [scanSubF, hm]
                      rw [ih f2 (r.drop k) hd1 hd2]

theorem runPass_nil (t : List Char → Option (List Char × Nat)) : runPass t [] = [] := rfl

theorem runPass_cons_none {t : List Char → Option (List Char × Nat)} {c : Char}
    {r : List Char} (h : t (c :: r) = none) :
    runPass t (c :: r) = c :: runPass t r := by
  show scanSubF t (r.length + 1) (c :: r) = _
  simp only [scanSubF, h]
  rfl

theorem runPass_cons_some {t : List Char → Option (List Char × Nat)} {c : Char}
    {r rep : List Char} {k : Nat} (h : t (c :: r) = some (rep, k + 1)) :
    runPass t (c :: r) = rep ++ runPass t (r.drop k) := by
  show scanSubF t (r.length + 1) (c :: r) = _
  simp only [scanSubF, h]
  rw [scanSubF_congr t r.length (r.drop k).length (r.drop k)
    (by rw [List.length_drop]; exact Nat.sub_le _ _) (Nat.le_refl _)]
  rfl

theorem runPass_consume {t : List Char → Option (List Char × Nat)} {rep grp z : List Char}
    (hg : grp ≠ []) (h : t (grp ++ z) = some (rep, grp.length)) :
    runPass t (grp ++ z) = rep ++ runPass t z := by
  cases grp with
  | nil => exact absurd rfl hg
  | cons c g =>
      rw [List.cons_append]
      have h' : t (c :: (g ++ z)) = some (rep, g.length + 1) := by
        rw [← List.cons_append]
        simpa using h
      rw [runPass_cons_some h', List.drop_left]

theorem runPass_walk {t : List Char → Option (List Char × Nat)} {trig : Char}
    (htr : ∀ (c : Char) (r : List Char), c ≠ trig → t (c :: r) = none) :
    ∀ {a : List Char}, (∀ c ∈ a, c ≠ trig) → ∀ (b : List Char),
      runPass t (a ++ b) = a ++ runPass t b := by
  intro a
  induction a with
  | nil => intro _ b; simp
  | cons c a ih =>
      intro ha b
      rw [List.cons_append, runPass_cons_none (htr c _ (ha c (by simp))),
        ih (fun d hd => ha d (by simp [hd])) b]
      rfl

theorem runPass_id {t : List Char → Option (List Char × Nat)} {trig : Char}
    (htr : ∀ (c : Char) (r : List Char), c ≠ trig → t (c :: r) = none)
    {s : List Char} (hs : ∀ c ∈ s, c ≠ trig) : runPass t s = s := by
  have := runPass_walk htr hs []
  simpa [runPass_nil] using this

/-! ## Line-wise passes -/

theorem splitNl_no_nl {s : List Char} (h : '\n' ∉ s) : splitNl s = [s] := by
  induction s with
  | nil => rfl
  | cons c r ih =>
      have hc : ¬ (c = '\n') := fun e => h (by simp [e])
      simp only [splitNl]
      rw [if_neg hc, ih (fun hm => h (by simp [hm]))]

theorem lineSub_single {f : List Char → List Char} {s : List Char} (h : '\n' ∉ s) :
    lineSub f s = f s := by
  unfold lineSub
  rw [splitNl_no_nl h]
  simp [joinNl, List.intercalate]

theorem h1Line_id {l : List Char} (h : (str "# ").isPrefixOf l = false) : h1Line l = l := by
  simp [h1Line, h]

theorem h3Line_id {l : List Char} (h : (str "### ").isPrefixOf l = false) : h3Line l = l := by
  simp [h3Line, h]

theorem strongLine_id {l : List Char} (h : (str "**").isPrefixOf l = false) :
    strongLine l = l := by
  simp [strongLine, h]

theorem bqLine_id {l : List Char} (h : (str "> ").isPrefixOf l = false) : bqLine l = l := by
  simp [bqLine, h]

theorem liLine_id {l : List Char} (h : (str "- ").isPrefixOf l = false) : liLine l = l := by
  simp [liLine, h]

theorem hrLine_id {l : List Char} (h : l ≠ str "---") : hrLine l = l := by
  simp [hrLine, h]

theorem labelLine_id {l : List Char} (h1 : (str "TLDR:").isPrefixOf l = false)
    (h2 : (str "Take:").isPrefixOf l = false) (h3 : (str "Comments:").isPrefixOf l = false) :
    labelLine l = l := by
  simp [labelLine, h1, h2, h3]

/-! ## Trigger characters of the inline passes -/

theorem linkTry_none {c : Char} (h : c ≠ '[') (r : List Char) : linkTry (c :: r) = none := by
  simp [linkTry, h]

theorem boldTry_none {c : Char} (h : c ≠ '*') (r : List Char) : boldTry (c :: r) = none := by
  cases r with
  | nil => rfl
  | cons c2 r2 => simp [boldTry, h]

theorem emTry_none {c : Char} (h : c ≠ '*') (r : List Char) : emTry (c :: r) = none := by
  simp [emTry, h]

theorem tagTry_none {c : Char} (h : c ≠ '#') (r : List Char) : tagTry (c :: r) = none := by
  simp [tagTry, h]

theorem wrapTry_none_head {c : Char} (h : c ≠ '<') (r : List Char) :
    wrapTry (c :: r) = none := by
  have hp : LI_OPEN.isPrefixOf (c :: r) = false := by
    rw [show LI_OPEN = '<' :: str "li>" from rfl]
    exact isPrefixOf_cons_ne (fun hh => h hh.symm) _ _
  simp [wrapTry, hp]

theorem wrapTry_none_two {c : Char} (h : c ≠ 'l') (r : List Char) :
    wrapTry ('<' :: c :: r) = none := by
  have hin : ('l' :: str "i>").isPrefixOf (c :: r) = false :=
    isPrefixOf_cons_ne (fun hh => h hh.symm) _ _
  have hp : LI_OPEN.isPrefixOf ('<' :: c :: r) = false := by
    rw [show LI_OPEN = '<' :: ('l' :: str "i>") from rfl]
    simp [List.isPrefixOf, hin]
    intro e
    exact absurd e.symm h
  simp [wrapTry, hp]

/-! ## The pair scan used for the wrap pass -/

theorem noLtL_cons_ne {c1 : Char} (h : c1 ≠ '<') : ∀ (l : List Char),
    noLtL (c1 :: l) = noLtL l := by
  intro l
  cases l with
  | nil => rfl
  | cons c2 r => simp [noLtL, h]

theorem noLtL_tail {c1 c2 : Char} {r : List Char} (h : noLtL (c1 :: c2 :: r) = true) :
    noLtL (c2 :: r) = true := by
  by_cases hc : c1 = '<' ∧ c2 = 'l'
  · rw [show noLtL (c1 :: c2 :: r) = false from by simp only [noLtL]; rw [if_pos hc]] at h
    cases h
  · rw [show noLtL (c1 :: c2 :: r) = noLtL (c2 :: r) from by
      simp only [noLtL]; rw [if_neg hc]] at h
    exact h

theorem noLtL_of_not_mem {s : List Char} (h : '<' ∉ s) : noLtL s = true := by
  induction s with
  | nil => rfl
  | cons c r ih =>
      rw [noLtL_cons_ne (fun e => h (by simp [e])) r]
      exact ih (fun hm => h (by simp [hm]))

theorem mem_of_getLast : ∀ (l : List Char) (a : Char), l.getLast? = some a → a ∈ l := by
  intro l
  induction l with
  | nil => intro a h; simp at h
  | cons c r ih =>
      intro a h
      cases r with
      | nil =>
          rw [List.getLast?_singleton] at h
          simp at h
          simp [h]
      | cons d r' =>
          rw [List.getLast?_cons_cons] at h
          exact List.mem_cons_of_mem _ (ih a h)

theorem noLtL_append : ∀ (a b : List Char), noLtL a = true → noLtL b = true →
    (a.getLast? = some '<' → b.head? = some 'l' → False) → noLtL (a ++ b) = true := by
  intro a
  induction a with
  | nil => intro b _ hb _; simpa using hb
  | cons c a ih =>
      intro b ha hb hcross
      cases a with
      | nil =>
          cases b with
          | nil => rfl
          | cons d b' =>
              by_cases hc : c = '<' ∧ d = 'l'
              · exact ((hcross (by simp [hc.1]) (by simp [hc.2])).elim)
              · show noLtL (c :: d :: b') = true
                simp only [noLtL]
                rw [if_neg hc]
                exact hb
      | cons c2 a' =>
          by_cases hc : c = '<' ∧ c2 = 'l'
          · rw [show noLtL (c :: c2 :: a') = false from by
              simp only [noLtL]; rw [if_pos hc]] at ha
            cases ha
          · show noLtL (c :: c2 :: (a' ++ b)) = true
            simp only [noLtL]
            rw [if_neg hc, ← List.cons_append]
            exact ih b (noLtL_tail ha) hb
              (fun hl hh => hcross (by rw [List.getLast?_cons_cons]; exact hl) hh)

theorem runPass_wrapTry_id : ∀ {s : List Char}, noLtL s = true → runPass wrapTry s = s := by
  intro s
  induction s with
  | nil => intro _; rfl
  | cons c r ih =>
      intro h
      cases r with
      | nil =>
          have hw : wrapTry [c] = none := by
            have hp : LI_OPEN.isPrefixOf [c] = false := by
              simp [List.isPrefixOf, Bool.and_false]
            simp [wrapTry, hp]
          rw [runPass_cons_none hw]
          rfl
      | cons c2 r2 =>
          by_cases hc : c = '<'
          · subst hc
            have hc2 : c2 ≠ 'l' := by
              intro e
              subst e
              rw [show noLtL ('<' :: 'l' :: r2) = false from by simp [noLtL]] at h
              cases h
            rw [runPass_cons_none (wrapTry_none_two hc2 r2), ih (noLtL_tail h)]
          · rw [runPass_cons_none (wrapTry_none_head hc _), ih (noLtL_tail h)]

/-! ## takeWhile and dropWhile helpers -/

theorem drop_takeWhile (p : Char → Bool) : ∀ (s : List Char),
    s.drop (s.takeWhile p).length = s.dropWhile p := by
  intro s
  induction s with
  | nil => rfl
  | cons c r ih =>
      by_cases hc : p c = true
      · simp [List.takeWhile_cons, List.dropWhile_cons, hc, ih]
      · rw [Bool.not_eq_true] at hc
        simp [List.takeWhile_cons, List.dropWhile_cons, hc]

theorem takeWhile_append_not {p : Char → Bool} {c : Char} (hc : p c = false) :
    ∀ (a z : List Char), (a ++ c :: z).takeWhile p = a.takeWhile p := by
  intro a
  induction a with
  | nil => intro z; simp [List.takeWhile_cons, hc]
  | cons d a ih =>
      intro z
      by_cases hd : p d = true
      · simp [List.takeWhile_cons, hd, ih]
      · rw [Bool.not_eq_true] at hd
        simp [List.takeWhile_cons, hd]

theorem takeWhile_length_le (p : Char → Bool) (l : List Char) :
    (l.takeWhile p).length ≤ l.length :=
  (List.takeWhile_sublist p).length_le

theorem dropWhile_append_of_exists {p : Char → Bool} :
    ∀ {sep : List Char}, (∃ c ∈ sep, p c = false) → ∀ (z : List Char),
      (sep ++ z).dropWhile p = sep.dropWhile p ++ z := by
  intro sep
  induction sep with
  | nil => intro h z; obtain ⟨c, hc, _⟩ := h; simp at hc
  | cons c sep ih =>
      intro h z
      by_cases hc : p c = true
      · have h' : ∃ d ∈ sep, p d = false := by
          obtain ⟨d, hd, hpd⟩ := h
          rcases List.mem_cons.mp hd with he | he
          · rw [he] at hpd; rw [hpd] at hc; cases hc
          · exact ⟨d, he, hpd⟩
        simp [List.dropWhile_cons, hc, ih h']
      · rw [Bool.not_eq_true] at hc
        simp [List.dropWhile_cons, hc]

theorem dropWhile_head (p : Char → Bool) : ∀ (s : List Char),
    s.dropWhile p = [] ∨ ∃ c r, s.dropWhile p = c :: r ∧ c ∈ s ∧ p c = false := by
  intro s
  induction s with
  | nil => left; rfl
  | cons c r ih =>
      by_cases hc : p c = true
      · rcases ih with h | ⟨d, rr, h1, h2, h3⟩
        · left; simp [List.dropWhile_cons, hc, h]
        · right
          exact ⟨d, rr, by simp [List.dropWhile_cons, hc, h1], by simp [h2], h3⟩
      · rw [Bool.not_eq_true] at hc
        right
        exact ⟨c, r, by simp [List.dropWhile_cons, hc], by simp, hc⟩

theorem sep_stop {sep : List Char} (hlt : '<' ∉ sep) (hex : ∃ c ∈ sep, pyIsSpace c = false)
    (z : List Char) :
    LI_OPEN.isPrefixOf ((sep ++ z).dropWhile pyIsSpace) = false := by
  rw [dropWhile_append_of_exists hex z]
  rcases dropWhile_head pyIsSpace sep with h | ⟨c, r, h1, h2, _⟩
  · obtain ⟨c, hc, hpc⟩ := hex
    rw [List.dropWhile_eq_nil_iff] at h
    rw [h c hc] at hpc
    cases hpc
  · rw [h1, List.cons_append, show LI_OPEN = '<' :: str "li>" from rfl]
    exact isPrefixOf_cons_ne (fun e => hlt (by rw [e]; exact h2)) _ _

theorem post_stop {z : List Char} (hlt : '<' ∉ z) :
    LI_OPEN.isPrefixOf (z.dropWhile pyIsSpace) = false := by
  rcases dropWhile_head pyIsSpace z with h | ⟨c, r, h1, h2, _⟩
  · rw [h]
    rfl
  · rw [h1, show LI_OPEN = '<' :: str "li>" from rfl]
    exact isPrefixOf_cons_ne (fun e => hlt (by rw [e]; exact h2)) _ _

theorem append_ne_nil_left {a b : List Char} (h : a ≠ []) : a ++ b ≠ [] := by
  cases a with
  | nil => exact absurd rfl h
  | cons c r => simp

/-! ## The star of the wrap pass -/

theorem wrapStarF_nil (f : Nat) : wrapStarF f [] = ([], []) := by
  cases f <;> rfl

theorem wrapStarF_congr : ∀ (f1 f2 : Nat) (s : List Char), s.length ≤ f1 → s.length ≤ f2 →
    wrapStarF f1 s = wrapStarF f2 s := by
  intro f1
  induction f1 with
  | zero =>
      intro f2 s h1 _
      have : s = [] := List.eq_nil_of_length_eq_zero (Nat.le_zero.mp h1)
      subst this
      rw [wrapStarF_nil, wrapStarF_nil]
  | succ f1 ih =>
      intro f2 s h1 h2
      cases s with
      | nil => rw [wrapStarF_nil, wrapStarF_nil]
      | cons c r =>
          cases f2 with
          | zero => simp at h2
          | succ f2 =>
              simp only [wrapStarF]
              by_cases hp :
                  LI_OPEN.isPrefixOf
                    ((c :: r).drop ((c :: r).takeWhile pyIsSpace).length) = true
              · rw [if_pos hp, if_pos hp]
                cases hz : lazyUpto false LI_CLOSE
                    (((c :: r).drop ((c :: r).takeWhile pyIsSpace).length).drop
                      LI_OPEN.length) with
                | none => rfl
                | some pr =>
                    obtain ⟨b, rr⟩ := pr
                    have hlt : rr.length ≤ r.length := by
                      have h4 := lazyUpto_lt hz
                      rw [List.length_drop, List.length_drop] at h4
                      simp at h4
                      omega
                    have ha : rr.length ≤ f1 := by simp at h1; omega
                    have hb : rr.length ≤ f2 := by simp at h2; omega
                    simp [ih f2 rr ha hb]
              · rw [if_neg hp, if_neg hp]

theorem wrapStar_stop {s : List Char}
    (h : LI_OPEN.isPrefixOf (s.dropWhile pyIsSpace) = false) : wrapStar s = ([], s) := by
  cases s with
  | nil => rfl
  | cons c r =>
      show wrapStarF (r.length + 1) (c :: r) = ([], c :: r)
      simp only [wrapStarF]
      have h' : ¬ (LI_OPEN.isPrefixOf
          ((c :: r).drop ((c :: r).takeWhile pyIsSpace).length) = true) := by
        rw [drop_takeWhile, h]
        exact Bool.false_ne_true
      rw [if_neg h']

theorem wrapStar_item {w b : List Char} (hw : ∀ c ∈ w, pyIsSpace c = true)
    (hb : b ≠ []) (hbl : '<' ∉ b) (rest : List Char) :
    wrapStar (w ++ (LI_OPEN ++ (b ++ (LI_CLOSE ++ rest)))) =
      (w ++ (LI_OPEN ++ (b ++ (LI_CLOSE ++ (wrapStar rest).1))), (wrapStar rest).2) := by
  have hXne : w ++ (LI_OPEN ++ (b ++ (LI_CLOSE ++ rest))) ≠ [] := by
    cases w with
    | nil => simp [LI_OPEN, str]
    | cons c ww => simp
  obtain ⟨f, hf⟩ : ∃ f, (w ++ (LI_OPEN ++ (b ++ (LI_CLOSE ++ rest)))).length = f + 1 := by
    cases hlen : (w ++ (LI_OPEN ++ (b ++ (LI_CLOSE ++ rest)))).length with
    | zero => exact absurd (List.eq_nil_of_length_eq_zero hlen) hXne
    | succ f => exact ⟨f, rfl⟩
  have htw : (w ++ (LI_OPEN ++ (b ++ (LI_CLOSE ++ rest)))).takeWhile pyIsSpace = w := by
    rw [show LI_OPEN ++ (b ++ (LI_CLOSE ++ rest)) =
      '<' :: (str "li>" ++ (b ++ (LI_CLOSE ++ rest))) from rfl]
    exact takeWhile_append_stop (by decide) hw _
  have hlz : lazyUpto false LI_CLOSE (b ++ (LI_CLOSE ++ rest)) = some (b, rest) := by
    rw [← List.append_assoc, show LI_CLOSE = '<' :: str "/li>" from rfl]
    exact lazyUpto_exact hb hbl (fun hh => absurd hh Bool.false_ne_true) _
  have hrest : rest.length ≤ f := by
    rw [List.length_append, List.length_append, List.length_append, List.length_append] at hf
    have hpos : 0 < LI_OPEN.length := by decide
    omega
  show wrapStarF (w ++ (LI_OPEN ++ (b ++ (LI_CLOSE ++ rest)))).length _ = _
  rw [hf]
  simp only [wrapStarF]
  rw [htw, List.drop_left, if_pos (isPrefixOf_append_self _ _), List.drop_left, hlz]
  show (w ++ LI_OPEN ++ b ++ LI_CLOSE ++ (wrapStarF f rest).1, (wrapStarF f rest).2) = _
  rw [wrapStarF_congr f rest.length rest hrest (Nat.le_refl _)]
  show (w ++ LI_OPEN ++ b ++ LI_CLOSE ++ (wrapStar rest).1, (wrapStar rest).2) = _
  simp [List.append_assoc]

theorem wrapStar_run :
    ∀ (items : List (List Char × List Char)) (z : List Char),
      (∀ x ∈ items, (∀ c ∈ x.1, pyIsSpace c = true) ∧ x.2 ≠ [] ∧ '<' ∉ x.2) →
      LI_OPEN.isPrefixOf (z.dropWhile pyIsSpace) = false →
      wrapStar ((items.map (fun x => x.1 ++ liItem x.2)).flatten ++ z) =
        ((items.map (fun x => x.1 ++ liItem x.2)).flatten, z) := by
  intro items
  induction items with
  | nil =>
      intro z _ hz
      simpa using wrapStar_stop hz
  | cons x items ih =>
      intro z hx hz
      obtain ⟨w, b⟩ := x
      obtain ⟨hw, hb, hbl⟩ := hx (w, b) (by simp)
      rw [List.map_cons, List.flatten_cons]
      have hshape : (w ++ liItem b) ++ ((items.map (fun x => x.1 ++ liItem x.2)).flatten ++ z) =
          w ++ (LI_OPEN ++ (b ++ (LI_CLOSE ++
            ((items.map (fun x => x.1 ++ liItem x.2)).flatten ++ z)))) := by
        simp [liItem, List.append_assoc]
      rw [List.append_assoc, hshape,
        wrapStar_item hw hb hbl _, ih z (fun y hy => hx y (by simp [hy])) hz]
      simp [liItem, List.append_assoc]

theorem wrapTry_pos {s b r : List Char} (hp : LI_OPEN.isPrefixOf s = true)
    (hl : lazyUpto false LI_CLOSE (s.drop LI_OPEN.length) = some (b, r)) :
    wrapTry s =
      some (str "<ul>" ++ (LI_OPEN ++ b ++ LI_CLOSE ++ (wrapStar r).1) ++ str "</ul>",
        (LI_OPEN ++ b ++ LI_CLOSE ++ (wrapStar r).1).length) := by
  unfold wrapTry
  rw [if_pos hp, hl]

theorem wrapTry_run {b : List Char} (hb : b ≠ []) (hbl : '<' ∉ b)
    {items : List (List Char × List Char)}
    (hx : ∀ x ∈ items, (∀ c ∈ x.1, pyIsSpace c = true) ∧ x.2 ≠ [] ∧ '<' ∉ x.2)
    {z : List Char} (hz : LI_OPEN.isPrefixOf (z.dropWhile pyIsSpace) = false) :
    wrapTry (renderRun b items ++ z) =
      some (str "<ul>" ++ renderRun b items ++ str "</ul>", (renderRun b items).length) := by
  have hflat := wrapStar_run items z hx hz
  have hshape : renderRun b items ++ z =
      LI_OPEN ++ (b ++ (LI_CLOSE ++
        ((items.map (fun x => x.1 ++ liItem x.2)).flatten ++ z))) := by
    simp [renderRun, liItem, List.append_assoc]
  rw [hshape]
  have hl : lazyUpto false LI_CLOSE
      ((LI_OPEN ++ (b ++ (LI_CLOSE ++
        ((items.map (fun x => x.1 ++ liItem x.2)).flatten ++ z)))).drop LI_OPEN.length) =
      some (b, (items.map (fun x => x.1 ++ liItem x.2)).flatten ++ z) := by
    rw [List.drop_left, ← List.append_assoc, show LI_CLOSE = '<' :: str "/li>" from rfl]
    exact lazyUpto_exact hb hbl (fun hh => absurd hh Bool.false_ne_true) _
  rw [wrapTry_pos (isPrefixOf_append_self _ _) hl, hflat]
  have hgrp : LI_OPEN ++ b ++ LI_CLOSE ++ (items.map (fun x => x.1 ++ liItem x.2)).flatten =
      renderRun b items := by
    simp only [renderRun, liItem]
  rw [hgrp]

/-! ## Anchored matches of the link and tag passes -/

theorem linkTry_match {t u : List Char} (ht : t ≠ []) (htn : '\n' ∉ t) (htb : ']' ∉ t)
    (hu : u ≠ []) (hun : '\n' ∉ u) (hub : ')' ∉ u) (z : List Char) :
    linkTry ('[' :: (t ++ (str "](" ++ (u ++ (str ")" ++ z))))) =
      some (mkLink t u, 1 + t.length + 2 + u.length + 1) := by
  have h1 : lazyUpto true (str "](") (t ++ (str "](" ++ (u ++ (str ")" ++ z)))) =
      some (t, u ++ (str ")" ++ z)) := by
    rw [← List.append_assoc, show str "](" = ']' :: str "(" from rfl]
    exact lazyUpto_exact ht htb (fun _ => htn) _
  obtain ⟨f, hf⟩ : ∃ f, (u ++ (str ")" ++ z)).length = f + 1 := by
    cases u with
    | nil => exact absurd rfl hu
    | cons a b => exact ⟨(b ++ (str ")" ++ z)).length, by simp⟩
  have h2 : lazyUpto true (str ")") (u ++ (str ")" ++ z)) = some (u, z) := by
    rw [← List.append_assoc, show str ")" = ')' :: ([] : List Char) from rfl]
    exact lazyUpto_exact hu hub (fun _ => hun) _
  simp only [linkTry]
  rw [if_pos trivial, h1]
  show linkGo (u ++ (str ")" ++ z)).length t (u ++ (str ")" ++ z)) = _
  rw [hf]
  simp only [linkGo]
  rw [h2]

theorem tagTry_match {w : List Char} (hw : ∀ c ∈ w, isWordChar c = true) (hne : w ≠ [])
    {b : List Char} (hb : ∀ c, b.head? = some c → isWordChar c = false) :
    tagTry ('#' :: (w ++ b)) = some (tagSpan w, 1 + w.length) := by
  have htw : (w ++ b).takeWhile isWordChar = w := by
    cases b with
    | nil => rw [List.append_nil]; exact takeWhile_all hw
    | cons d b' => exact takeWhile_append_stop (hb d rfl) hw b'
  simp [tagTry, htw, isEmpty_false_of_ne hne]

theorem tagSub_split {c : Char} (hc : isWordChar c = false) :
    ∀ (n : Nat) (a z : List Char), a.length ≤ n →
      runPass tagTry (a ++ c :: z) = runPass tagTry a ++ runPass tagTry (c :: z) := by
  intro n
  induction n with
  | zero =>
      intro a z ha
      have : a = [] := List.eq_nil_of_length_eq_zero (Nat.le_zero.mp ha)
      subst this
      simp [runPass_nil]
  | succ n ih =>
      intro a z ha
      cases a with
      | nil => simp [runPass_nil]
      | cons c0 a0 =>
          have ha0 : a0.length ≤ n := by simp at ha; omega
          by_cases h0 : c0 = '#'
          · subst h0
            have htw : (a0 ++ c :: z).takeWhile isWordChar = a0.takeWhile isWordChar :=
              takeWhile_append_not hc a0 z
            by_cases hw : a0.takeWhile isWordChar = []
            · have hl : tagTry ('#' :: (a0 ++ c :: z)) = none := by
                simp [tagTry, htw, hw]
              have hr : tagTry ('#' :: a0) = none := by
                simp [tagTry, hw]
              rw [List.cons_append, runPass_cons_none hl, runPass_cons_none hr,
                ih a0 z ha0]
              rfl
            · have hl : tagTry ('#' :: (a0 ++ c :: z)) =
                  some (tagSpan (a0.takeWhile isWordChar),
                    (a0.takeWhile isWordChar).length + 1) := by
                simp [tagTry, htw, isEmpty_false_of_ne hw, Nat.add_comm]
              have hr : tagTry ('#' :: a0) =
                  some (tagSpan (a0.takeWhile isWordChar),
                    (a0.takeWhile isWordChar).length + 1) := by
                simp [tagTry, isEmpty_false_of_ne hw, Nat.add_comm]
              have hlen : (a0.takeWhile isWordChar).length ≤ a0.length :=
                takeWhile_length_le isWordChar a0
              have hdrop : (a0 ++ c :: z).drop (a0.takeWhile isWordChar).length =
                  a0.drop (a0.takeWhile isWordChar).length ++ c :: z :=
                List.drop_append_of_le_length hlen
              have hdlen : (a0.drop (a0.takeWhile isWordChar).length).length ≤ n := by
                rw [List.length_drop]
                omega
              rw [List.cons_append, runPass_cons_some hl, runPass_cons_some hr, hdrop,
                ih (a0.drop (a0.takeWhile isWordChar).length) z hdlen]
              simp [List.append_assoc]
          · rw [List.cons_append, runPass_cons_none (tagTry_none h0 _),
              runPass_cons_none (tagTry_none h0 _), ih a0 z ha0]
            rfl

/-! ## Claim C8 -/

/-- C8: at the point the tag pass runs, every `#` followed by a word run —
wherever it occurs, in particular inside text produced by the earlier heading
and link passes — is wrapped in a tag-styled span, and `#rust` alone converts
to exactly that span. -/
theorem c8_hashtags :
    (∀ (a w b : List Char), (∀ c ∈ w, isWordChar c = true) → w ≠ [] →
      (∀ c, b.head? = some c → isWordChar c = false) →
      runPass tagTry (a ++ '#' :: (w ++ b)) =
        runPass tagTry a ++ (tagSpan w ++ runPass tagTry b)) ∧
    md_to_html (str "#rust") = str "<span class=\"tag\">#rust</span>" := by
  constructor
  · intro a w b hw hne hb
    rw [tagSub_split (show isWordChar '#' = false from by decide) a.length a (w ++ b)
      (Nat.le_refl _)]
    have hm := tagTry_match hw hne hb
    rw [Nat.add_comm 1 w.length] at hm
    rw [runPass_cons_some hm, List.drop_left]
  · decide

/-! ## Claim C6 -/

/-- C6: a maximal run of list items (whitespace between them) is wrapped in a
single list container, runs separated by non-whitespace text get separate
containers, and `- a` then `- b` yields one `<ul>` with the two items in
order. -/
theorem c6_list_wrapping :
    (∀ (pre b1 : List Char) (items1 : List (List Char × List Char)) (sep b2 : List Char)
        (items2 : List (List Char × List Char)) (post : List Char),
      '<' ∉ pre →
      b1 ≠ [] → '<' ∉ b1 →
      (∀ x ∈ items1, (∀ c ∈ x.1, pyIsSpace c = true) ∧ x.2 ≠ [] ∧ '<' ∉ x.2) →
      '<' ∉ sep → (∃ c ∈ sep, pyIsSpace c = false) →
      b2 ≠ [] → '<' ∉ b2 →
      (∀ x ∈ items2, (∀ c ∈ x.1, pyIsSpace c = true) ∧ x.2 ≠ [] ∧ '<' ∉ x.2) →
      '<' ∉ post →
      runPass wrapTry
          (pre ++ (renderRun b1 items1 ++ (sep ++ (renderRun b2 items2 ++ post)))) =
        pre ++ (str "<ul>" ++ (renderRun b1 items1 ++ (str "</ul>" ++
          (sep ++ (str "<ul>" ++ (renderRun b2 items2 ++ (str "</ul>" ++ post)))))))) ∧
    md_to_html (str "- a\n- b") = str "<ul><li>a</li>\n<li>b</li></ul>" := by
  constructor
  · intro pre b1 items1 sep b2 items2 post hpre hb1 hb1l hi1 hsep hsepx hb2 hb2l hi2 hpost
    have htr : ∀ (c : Char) (r : List Char), c ≠ '<' → wrapTry (c :: r) = none :=
      fun c r hc => wrapTry_none_head hc r
    have hR1 : renderRun b1 items1 ≠ [] := by
      simp only [renderRun]
      exact append_ne_nil_left (append_ne_nil_left (append_ne_nil_left (by decide)))
    have hR2 : renderRun b2 items2 ≠ [] := by
      simp only [renderRun]
      exact append_ne_nil_left (append_ne_nil_left (append_ne_nil_left (by decide)))
    rw [runPass_walk htr (fun c hc e => hpre (e ▸ hc)) _]
    rw [runPass_consume hR1 (wrapTry_run hb1 hb1l hi1 (sep_stop hsep hsepx _))]
    rw [runPass_walk htr (fun c hc e => hsep (e ▸ hc)) _]
    rw [runPass_consume hR2 (wrapTry_run hb2 hb2l hi2 (post_stop hpost))]
    rw [runPass_id htr (fun c hc e => hpost (e ▸ hc))]
    simp [List.append_assoc]
  · decide

/-- Witness for C6: two items separated by a newline form one container, a
non-whitespace line apart from a third item, which gets its own container. -/
theorem c6_witness :
    runPass wrapTry
        (str "x\n" ++ (renderRun (str "a") [(str "\n", str "b")] ++ (str "\ny\n" ++
          (renderRun (str "c") [] ++ str "\nz")))) =
      str "x\n" ++ (str "<ul>" ++ (renderRun (str "a") [(str "\n", str "b")] ++ (str "</ul>" ++
        (str "\ny\n" ++ (str "<ul>" ++ (renderRun (str "c") [] ++
          (str "</ul>" ++ str "\nz"))))))) :=
  c6_list_wrapping.1 (str "x\n") (str "a") [(str "\n", str "b")] (str "\ny\n") (str "c") []
    (str "\nz") (by decide) (by decide) (by decide) (by decide) (by decide) (by decide)
    (by decide) (by decide) (by decide) (by decide)

/-! ## Claim C7 -/

/-- C7: the inline-link pass runs after the heading passes, so a heading line
`### [text](url) suffix` becomes a level-3 heading whose content is the
hyperlink followed by the suffix carried through literally. -/
theorem c7_heading_link (t u x : List Char) (ht : t ≠ []) (hu : u ≠ [])
    (hst : mdSafe t) (hsu : mdSafe u) (hsx : mdSafe x) :
    md_to_html (str "### [" ++ (t ++ (str "](" ++ (u ++ (str ") " ++ x))))) =
      str "<h3><a href=\"" ++ (u ++ (str "\">" ++ (t ++ (str "</a> " ++
        (x ++ str "</h3>"))))) := by
  have htn : '\n' ∉ t := fun hm => hst '\n' hm (by decide)
  have htb : ']' ∉ t := fun hm => hst ']' hm (by decide)
  have hts : '*' ∉ t := fun hm => hst '*' hm (by decide)
  have hth : '#' ∉ t := fun hm => hst '#' hm (by decide)
  have htl : '<' ∉ t := fun hm => hst '<' hm (by decide)
  have hun : '\n' ∉ u := fun hm => hsu '\n' hm (by decide)
  have hub : ')' ∉ u := fun hm => hsu ')' hm (by decide)
  have hus : '*' ∉ u := fun hm => hsu '*' hm (by decide)
  have huh : '#' ∉ u := fun hm => hsu '#' hm (by decide)
  have hul : '<' ∉ u := fun hm => hsu '<' hm (by decide)
  have hxn : '\n' ∉ x := fun hm => hsx '\n' hm (by decide)
  have hxo : '[' ∉ x := fun hm => hsx '[' hm (by decide)
  have hxs : '*' ∉ x := fun hm => hsx '*' hm (by decide)
  have hxh : '#' ∉ x := fun hm => hsx '#' hm (by decide)
  have hxl : '<' ∉ x := fun hm => hsx '<' hm (by decide)
  have hnlIN : '\n' ∉ str "### [" ++ (t ++ (str "](" ++ (u ++ (str ") " ++ x)))) := by
    simp only [List.mem_append, not_or]
    exact ⟨by decide, htn, by decide, hun, by decide, hxn⟩
  have hnlS1 : '\n' ∉
      str "<h3>[" ++ (t ++ (str "](" ++ (u ++ (str ") " ++ (x ++ str "</h3>"))))) := by
    simp only [List.mem_append, not_or]
    exact ⟨by decide, htn, by decide, hun, by decide, hxn, by decide⟩
  have hnlS2 : '\n' ∉
      str "<h3><a href=\"" ++ (u ++ (str "\">" ++ (t ++ (str "</a> " ++
        (x ++ str "</h3>"))))) := by
    simp only [List.mem_append, not_or]
    exact ⟨by decide, hun, by decide, htn, by decide, hxn, by decide⟩
  have h1id : h1Line (str "### [" ++ (t ++ (str "](" ++ (u ++ (str ") " ++ x))))) =
      str "### [" ++ (t ++ (str "](" ++ (u ++ (str ") " ++ x)))) :=
    h1Line_id rfl
  have e3 : h3Line (str "### [" ++ (t ++ (str "](" ++ (u ++ (str ") " ++ x))))) =
      str "<h3>[" ++ (t ++ (str "](" ++ (u ++ (str ") " ++ (x ++ str "</h3>"))))) := by
    unfold h3Line
    rw [if_pos (by rfl)]
    show str "<h3>" ++ (str "[" ++ (t ++ (str "](" ++ (u ++ (str ") " ++ x))))) ++
      str "</h3>" = _
    simp only [List.append_assoc]
    rfl
  have strongid : strongLine
      (str "<h3>[" ++ (t ++ (str "](" ++ (u ++ (str ") " ++ (x ++ str "</h3>")))))) =
      str "<h3>[" ++ (t ++ (str "](" ++ (u ++ (str ") " ++ (x ++ str "</h3>"))))) :=
    strongLine_id rfl
  have bqid : bqLine
      (str "<h3>[" ++ (t ++ (str "](" ++ (u ++ (str ") " ++ (x ++ str "</h3>")))))) =
      str "<h3>[" ++ (t ++ (str "](" ++ (u ++ (str ") " ++ (x ++ str "</h3>"))))) :=
    bqLine_id rfl
  have hzmem : ∀ c ∈ ' ' :: (x ++ str "</h3>"), c ≠ '[' := by
    intro c hc
    rcases List.mem_cons.mp hc with e | hc2
    · intro e2; rw [e2] at e; exact absurd e (by decide)
    · rcases List.mem_append.mp hc2 with h | h
      · intro e2; rw [e2] at h; exact hxo h
      · intro e2; rw [e2] at h; exact absurd h (by decide)
  have hdrop : (t ++ (str "](" ++ (u ++ (str ")" ++ (' ' :: (x ++ str "</h3>")))))).drop
      (1 + t.length + 2 + u.length) = ' ' :: (x ++ str "</h3>") := by
    rw [show 1 + t.length + 2 + u.length = t.length + (2 + (u.length + 1)) from by omega,
      List.drop_append,
      show (2 + (u.length + 1) : Nat) = (str "](").length + (u.length + 1) from rfl,
      List.drop_append,
      show (u.length + 1 : Nat) = u.length + 1 from rfl,
      List.drop_append]
    rfl
  have e5 : runPass linkTry
      (str "<h3>[" ++ (t ++ (str "](" ++ (u ++ (str ") " ++ (x ++ str "</h3>")))))) =
      str "<h3><a href=\"" ++ (u ++ (str "\">" ++ (t ++ (str "</a> " ++
        (x ++ str "</h3>"))))) := by
    rw [show str "<h3>[" ++ (t ++ (str "](" ++ (u ++ (str ") " ++ (x ++ str "</h3>"))))) =
      str "<h3>" ++ ('[' :: (t ++ (str "](" ++ (u ++ (str ")" ++
        (' ' :: (x ++ str "</h3>"))))))) from rfl]
    rw [runPass_walk (fun c r hc => linkTry_none hc r)
      (fun c hc e => absurd (e ▸ hc) (by decide)) _]
    rw [runPass_cons_some (linkTry_match ht htn htb hu hun hub (' ' :: (x ++ str "</h3>")))]
    rw [hdrop, runPass_id (fun c r hc => linkTry_none hc r) hzmem]
    simp only [mkLink, List.append_assoc]
    rfl
  have hstar : ∀ c ∈ str "<h3><a href=\"" ++ (u ++ (str "\">" ++ (t ++ (str "</a> " ++
      (x ++ str "</h3>"))))), c ≠ '*' := by
    intro c hc
    simp only [List.mem_append] at hc
    rcases hc with hc | hc | hc | hc | hc | hc | hc
    · intro e; rw [e] at hc; exact absurd hc (by decide)
    · intro e; rw [e] at hc; exact hus hc
    · intro e; rw [e] at hc; exact absurd hc (by decide)
    · intro e; rw [e] at hc; exact hts hc
    · intro e; rw [e] at hc; exact absurd hc (by decide)
    · intro e; rw [e] at hc; exact hxs hc
    · intro e; rw [e] at hc; exact absurd hc (by decide)
  have hhash : ∀ c ∈ str "<h3><a href=\"" ++ (u ++ (str "\">" ++ (t ++ (str "</a> " ++
      (x ++ str "</h3>"))))), c ≠ '#' := by
    intro c hc
    simp only [List.mem_append] at hc
    rcases hc with hc | hc | hc | hc | hc | hc | hc
    · intro e; rw [e] at hc; exact absurd hc (by decide)
    · intro e; rw [e] at hc; exact huh hc
    · intro e; rw [e] at hc; exact absurd hc (by decide)
    · intro e; rw [e] at hc; exact hth hc
    · intro e; rw [e] at hc; exact absurd hc (by decide)
    · intro e; rw [e] at hc; exact hxh hc
    · intro e; rw [e] at hc; exact absurd hc (by decide)
  have boldid : runPass boldTry (str "<h3><a href=\"" ++ (u ++ (str "\">" ++ (t ++
      (str "</a> " ++ (x ++ str "</h3>")))))) =
      str "<h3><a href=\"" ++ (u ++ (str "\">" ++ (t ++ (str "</a> " ++
        (x ++ str "</h3>"))))) :=
    runPass_id (fun c r hc => boldTry_none hc r) hstar
  have emid : runPass emTry (str "<h3><a href=\"" ++ (u ++ (str "\">" ++ (t ++
      (str "</a> " ++ (x ++ str "</h3>")))))) =
      str "<h3><a href=\"" ++ (u ++ (str "\">" ++ (t ++ (str "</a> " ++
        (x ++ str "</h3>"))))) :=
    runPass_id (fun c r hc => emTry_none hc r) hstar
  have liid : liLine (str "<h3><a href=\"" ++ (u ++ (str "\">" ++ (t ++ (str "</a> " ++
      (x ++ str "</h3>")))))) =
      str "<h3><a href=\"" ++ (u ++ (str "\">" ++ (t ++ (str "</a> " ++
        (x ++ str "</h3>"))))) :=
    liLine_id rfl
  have tagid : runPass tagTry (str "<h3><a href=\"" ++ (u ++ (str "\">" ++ (t ++
      (str "</a> " ++ (x ++ str "</h3>")))))) =
      str "<h3><a href=\"" ++ (u ++ (str "\">" ++ (t ++ (str "</a> " ++
        (x ++ str "</h3>"))))) :=
    runPass_id (fun c r hc => tagTry_none hc r) hhash
  have hrneq : str "<h3><a href=\"" ++ (u ++ (str "\">" ++ (t ++ (str "</a> " ++
      (x ++ str "</h3>"))))) ≠ str "---" := by
    intro he
    have h0 := congrArg List.length he
    rw [List.length_append] at h0
    rw [show (str "<h3><a href=\"").length = 13 from rfl,
      show (str "---").length = 3 from rfl] at h0
    omega
  have hrid : hrLine (str "<h3><a href=\"" ++ (u ++ (str "\">" ++ (t ++ (str "</a> " ++
      (x ++ str "</h3>")))))) =
      str "<h3><a href=\"" ++ (u ++ (str "\">" ++ (t ++ (str "</a> " ++
        (x ++ str "</h3>"))))) :=
    hrLine_id hrneq
  have labelid : labelLine (str "<h3><a href=\"" ++ (u ++ (str "\">" ++ (t ++
      (str "</a> " ++ (x ++ str "</h3>")))))) =
      str "<h3><a href=\"" ++ (u ++ (str "\">" ++ (t ++ (str "</a> " ++
        (x ++ str "</h3>"))))) :=
    labelLine_id rfl rfl rfl
  have nlt4 : noLtL (str "</h3>") = true := by decide
  have nltx : noLtL (x ++ str "</h3>") = true :=
    noLtL_append x _ (noLtL_of_not_mem hxl) nlt4 (fun hl _ => hxl (mem_of_getLast _ _ hl))
  have nlt3 : noLtL (str "</a> " ++ (x ++ str "</h3>")) = true :=
    noLtL_append _ _ (by decide) nltx (fun hl _ => absurd hl (by decide))
  have nltt : noLtL (t ++ (str "</a> " ++ (x ++ str "</h3>"))) = true :=
    noLtL_append t _ (noLtL_of_not_mem htl) nlt3 (fun hl _ => htl (mem_of_getLast _ _ hl))
  have nlt2 : noLtL (str "\">" ++ (t ++ (str "</a> " ++ (x ++ str "</h3>")))) = true :=
    noLtL_append _ _ (by decide) nltt (fun hl _ => absurd hl (by decide))
  have nltu : noLtL (u ++ (str "\">" ++ (t ++ (str "</a> " ++ (x ++ str "</h3>"))))) = true :=
    noLtL_append u _ (noLtL_of_not_mem hul) nlt2 (fun hl _ => hul (mem_of_getLast _ _ hl))
  have nltS2 : noLtL (str "<h3><a href=\"" ++ (u ++ (str "\">" ++ (t ++ (str "</a> " ++
      (x ++ str "</h3>")))))) = true :=
    noLtL_append _ _ (by decide) nltu (fun hl _ => absurd hl (by decide))
  have wrapid : runPass wrapTry (str "<h3><a href=\"" ++ (u ++ (str "\">" ++ (t ++
      (str "</a> " ++ (x ++ str "</h3>")))))) =
      str "<h3><a href=\"" ++ (u ++ (str "\">" ++ (t ++ (str "</a> " ++
        (x ++ str "</h3>"))))) :=
    runPass_wrapTry_id nltS2
  unfold md_to_html
  rw [lineSub_single hnlIN, h1id, lineSub_single hnlIN, e3, lineSub_single hnlS1, strongid,
    lineSub_single hnlS1, bqid, e5, boldid, emid, lineSub_single hnlS2, liid, tagid,
    lineSub_single hnlS2, hrid, lineSub_single hnlS2, labelid, wrapid]

/-- Witness for C7: a story-title line with link and metadata suffix. -/
theorem c7_witness :
    md_to_html (str "### [Rust 1.0](https://x.io/a) • 619pts 288c") =
      str "<h3><a href=\"https://x.io/a\">Rust 1.0</a> • 619pts 288c</h3>" := by
  have h := c7_heading_link (str "Rust 1.0") (str "https://x.io/a") (str "• 619pts 288c")
    (by decide) (by decide) (by unfold mdSafe; decide) (by unfold mdSafe; decide)
    (by unfold mdSafe; decide)
  rw [show str "### [" ++ (str "Rust 1.0" ++ (str "](" ++ (str "https://x.io/a" ++
      (str ") " ++ str "• 619pts 288c")))) =
    str "### [Rust 1.0](https://x.io/a) • 619pts 288c" from rfl] at h
  rw [show str "<h3><a href=\"" ++ (str "https://x.io/a" ++ (str "\">" ++
      (str "Rust 1.0" ++ (str "</a> " ++ (str "• 619pts 288c" ++ str "</h3>"))))) =
    str "<h3><a href=\"https://x.io/a\">Rust 1.0</a> • 619pts 288c</h3>" from rfl] at h
  exact h

/-- Witness for C8: a hashtag inside already-converted heading text, and the
bare `#rust` conversion. -/
theorem c8_witness :
    runPass tagTry (str "<h3>x " ++ '#' :: (str "rust" ++ str " y</h3>")) =
      runPass tagTry (str "<h3>x ") ++ (tagSpan (str "rust") ++
        runPass tagTry (str " y</h3>")) ∧
    md_to_html (str "#rust") = str "<span class=\"tag\">#rust</span>" :=
  ⟨c8_hashtags.1 (str "<h3>x ") (str "rust") (str " y</h3>") (by decide) (by decide)
    (by decide), c8_hashtags.2⟩

end CRHN
